import Mathlib

/-!
Shallow embedding of `supsm::fixed<T, scale_bits, fast_multdiv, multdiv_cast_type>`
(src/fixed.h).  A value of the underlying type `T` is modelled by its bit
pattern, a `Nat` strictly below `2 ^ n`, where `n` is the number of bits of
`std::make_unsigned_t<T>` (`bits_num` in the source).  `signed` records the
signedness of `T`; the represented mathematical value of a pattern is obtained
with `toInt` (two's complement for signed `T`).  All C++ arithmetic on `T` is
translated with explicit reduction `% 2 ^ n`.
-/

namespace FixedPoint

/-- Value of an n-bit pattern when read back through the underlying type `T`:
two's complement if `signed`, the pattern itself otherwise. -/
def toInt (n : Nat) (signed : Bool) (x : Nat) : Int :=
  if signed ∧ 2 ^ (n - 1) ≤ x then (x : Int) - 2 ^ n else (x : Int)

/-- Bit pattern of the integer `v` after a (possibly narrowing, wrapping)
conversion to an n-bit type. -/
def encode (n : Nat) (v : Int) : Nat := (v % (2 ^ n : Int)).toNat

/-- Representable range of the underlying type `T`. -/
def inRange (n : Nat) (signed : Bool) (v : Int) : Prop :=
  if signed then -(2 ^ (n - 1)) ≤ v ∧ v ≤ 2 ^ (n - 1) - 1 else 0 ≤ v ∧ v ≤ 2 ^ n - 1

instance (n : Nat) (signed : Bool) (v : Int) : Decidable (inRange n signed v) := by
  unfold inRange
  infer_instance

/-- Quotient of `v` by `2 ^ k`, truncated toward zero. -/
def truncDiv (v : Int) (k : Nat) : Int := v.sign * ((v.natAbs / k : Nat) : Int)

/-- Quotient of `a` by `b`, truncated toward zero (C++ integer division). -/
def tdivRef (a b : Int) : Int := a.sign * b.sign * ((a.natAbs / b.natAbs : Nat) : Int)

/-- Constructor `fixed(int_val)` (src/fixed.h line 61):
`raw_data = T(int_val) << scale_bits`, wrapping at the width of `T`. -/
def fromInteger (n S : Nat) (v : Int) : Nat := encode n (v * 2 ^ S)

/-- Constructor `fixed(int_val, scale)` (src/fixed.h line 64):
`raw_data = T(int_val) << (scale_bits - scale)`; the subtraction is on
`std::size_t` and callers must keep `scale ≤ scale_bits`. -/
def fromScaled (n S : Nat) (v : Int) (scale : Nat) : Nat := encode n (v * 2 ^ (S - scale))

/-- Conversion `operator T2` as implemented (src/fixed.h line 74):
`return T2(raw_data) >> scale_bits;` — the pattern is first narrowed to the
target width `m` (signedness `s2`), the arithmetic shift then acts on that
narrowed value, and the result is returned as a `T2` pattern. -/
def toIntegerPattern (m : Nat) (s2 : Bool) (S : Nat) (x : Nat) : Nat :=
  encode m (Int.fdiv (toInt m s2 (x % 2 ^ m)) (2 ^ S))

/-- Value of the `operator T2` result, read back as a `T2`. -/
def toIntegerVal (m : Nat) (s2 : Bool) (S : Nat) (x : Nat) : Int :=
  toInt m s2 (toIntegerPattern m s2 S x)

/-- Modelled from the spec: the documented `to_integer` contract (also the
source's own comment at src/fixed.h lines 70-73) — the arithmetic right shift
by `scale_bits` happens at the width of `T` (value `toInt n signed x`), and
only the shifted result is narrowed to `T2`. -/
def toIntegerContractVal (n : Nat) (signed : Bool) (m : Nat) (s2 : Bool) (S : Nat) (x : Nat) : Int :=
  toInt m s2 (encode m (Int.fdiv (toInt n signed x) (2 ^ S)))

/-- Pattern of `std::numeric_limits<T>::min()`. -/
def tMinPattern (n : Nat) (signed : Bool) : Nat := if signed then 2 ^ (n - 1) else 0

/-- Pattern of `std::numeric_limits<T>::max()`. -/
def tMaxPattern (n : Nat) (signed : Bool) : Nat :=
  if signed then 2 ^ (n - 1) - 1 else 2 ^ n - 1

/-- Raw pattern of `std::numeric_limits<fixed>::min()` (src/fixed.h line 292):
`m.raw_data = numeric_limits<T>::min()`. -/
def nlMinPattern (n : Nat) (signed : Bool) : Nat := tMinPattern n signed

/-- Raw pattern of `std::numeric_limits<fixed>::max()` (src/fixed.h line 294):
`m.raw_data = numeric_limits<T>::max()`. -/
def nlMaxPattern (n : Nat) (signed : Bool) : Nat := tMaxPattern n signed

/-- Raw pattern of `std::numeric_limits<fixed>::epsilon()` (src/fixed.h
line 295): `return fixed_type(1, scale_bits);`. -/
def nlEpsilonPattern (n S : Nat) : Nat := fromScaled n S 1 S

section BasicLemmas

theorem two_pow_pos (n : Nat) : (0 : Int) < 2 ^ n := by positivity

theorem halfPow (n : Nat) (hn : 0 < n) : (2 : Int) ^ n = 2 ^ (n - 1) * 2 := by
  rw [← pow_succ]
  congr 1
  omega

theorem castPow (k : Nat) : ((2 ^ k : Nat) : Int) = (2 : Int) ^ k := by
  push_cast
  ring

theorem encode_lt (n : Nat) (v : Int) : encode n v < 2 ^ n := by
  unfold encode
  have h1 : v % (2 ^ n : Int) < 2 ^ n := Int.emod_lt_of_pos v (two_pow_pos n)
  have h2 : (0 : Int) ≤ v % (2 ^ n : Int) :=
    Int.emod_nonneg v (ne_of_gt (two_pow_pos n))
  have h3 : ((v % (2 ^ n : Int)).toNat : Int) < ((2 ^ n : Nat) : Int) := by
    rw [Int.toNat_of_nonneg h2, castPow]
    exact h1
  exact_mod_cast h3

theorem encode_of_nonneg (n : Nat) (v : Int) (h0 : 0 ≤ v) (h : v < 2 ^ n) :
    (encode n v : Int) = v := by
  unfold encode
  rw [Int.emod_eq_of_lt h0 h]
  exact Int.toNat_of_nonneg h0

theorem encode_of_neg (n : Nat) (v : Int) (h0 : -(2 ^ n) ≤ v) (h : v < 0) :
    (encode n v : Int) = v + 2 ^ n := by
  have hp := two_pow_pos n
  unfold encode
  have h3 : (v + 2 ^ n * 1) % (2 ^ n : Int) = v % (2 ^ n : Int) :=
    Int.add_mul_emod_self_left v (2 ^ n) 1
  rw [mul_one] at h3
  have h2 : v % (2 ^ n : Int) = v + 2 ^ n := by
    rw [← h3]
    exact Int.emod_eq_of_lt (by omega) (by omega)
  rw [h2]
  exact Int.toNat_of_nonneg (by omega)

theorem toInt_encode (n : Nat) (signed : Bool) (v : Int) (hn : 0 < n)
    (h : inRange n signed v) : toInt n signed (encode n v) = v := by
  have hs := halfPow n hn
  have hApos := two_pow_pos (n - 1)
  unfold inRange at h
  unfold toInt
  cases signed with
  | false =>
    rw [if_neg Bool.false_ne_true] at h
    rw [if_neg (fun hc => Bool.false_ne_true hc.1)]
    exact encode_of_nonneg n v h.1 (by omega)
  | true =>
    rw [if_pos rfl] at h
    by_cases hv : 0 ≤ v
    · have he : (encode n v : Int) = v := encode_of_nonneg n v hv (by omega)
      rw [if_neg]
      · exact he
      · intro hc
        have h2 : ((2 ^ (n - 1) : Nat) : Int) ≤ (encode n v : Int) := Int.ofNat_le.mpr hc.2
        rw [he, castPow] at h2
        omega
    · push_neg at hv
      have he : (encode n v : Int) = v + 2 ^ n := encode_of_neg n v (by omega) hv
      have hcond : 2 ^ (n - 1) ≤ encode n v := by
        have h2 : ((2 ^ (n - 1) : Nat) : Int) ≤ (encode n v : Int) := by
          rw [he, castPow]
          omega
        exact_mod_cast h2
      rw [if_pos ⟨rfl, hcond⟩, he]
      ring

theorem toInt_nonneg_eq (n : Nat) (x : Nat) : toInt n false x = (x : Int) := by
  unfold toInt
  rw [if_neg (fun hc => Bool.false_ne_true hc.1)]

theorem toInt_lt_cases (n : Nat) (x : Nat) :
    toInt n true x = if 2 ^ (n - 1) ≤ x then (x : Int) - 2 ^ n else (x : Int) := by
  unfold toInt
  by_cases h : 2 ^ (n - 1) ≤ x
  · rw [if_pos ⟨rfl, h⟩, if_pos h]
  · rw [if_neg (fun hc => h hc.2), if_neg h]

theorem encode_toInt (n : Nat) (signed : Bool) (x : Nat) (hx : x < 2 ^ n) :
    encode n (toInt n signed x) = x := by
  have hxI : (x : Int) < 2 ^ n := by
    have h2 : ((x : Nat) : Int) < ((2 ^ n : Nat) : Int) := Int.ofNat_lt.mpr hx
    rw [castPow] at h2
    exact h2
  unfold toInt
  by_cases h : (signed = true) ∧ 2 ^ (n - 1) ≤ x
  · rw [if_pos h]
    have h1 : ((x : Int) - 2 ^ n) % (2 ^ n : Int) = (x : Int) % (2 ^ n : Int) := by
      conv_rhs => rw [show (x : Int) = ((x : Int) - 2 ^ n) + 2 ^ n * 1 by ring]
      rw [Int.add_mul_emod_self_left]
    unfold encode
    rw [h1, Int.emod_eq_of_lt (Int.natCast_nonneg x) hxI]
    exact Int.toNat_natCast x
  · rw [if_neg h]
    unfold encode
    rw [Int.emod_eq_of_lt (Int.natCast_nonneg x) hxI]
    exact Int.toNat_natCast x

theorem toInt_inRange (n : Nat) (signed : Bool) (x : Nat) (hn : 0 < n) (hx : x < 2 ^ n) :
    inRange n signed (toInt n signed x) := by
  have hs := halfPow n hn
  have hApos := two_pow_pos (n - 1)
  have hxI : (x : Int) < 2 ^ n := by
    have h2 : ((x : Nat) : Int) < ((2 ^ n : Nat) : Int) := Int.ofNat_lt.mpr hx
    rw [castPow] at h2
    exact h2
  have hx0 : (0 : Int) ≤ (x : Int) := Int.natCast_nonneg x
  unfold toInt inRange
  cases signed with
  | false =>
    rw [if_neg (show ¬((false = true) ∧ 2 ^ (n - 1) ≤ x) from fun hc => Bool.false_ne_true hc.1),
      if_neg Bool.false_ne_true]
    exact ⟨hx0, by omega⟩
  | true =>
    rw [if_pos rfl]
    by_cases h : 2 ^ (n - 1) ≤ x
    · rw [if_pos ⟨rfl, h⟩]
      have h1 : (2 : Int) ^ (n - 1) ≤ (x : Int) := by
        have h2 : ((2 ^ (n - 1) : Nat) : Int) ≤ ((x : Nat) : Int) := Int.ofNat_le.mpr h
        rw [castPow] at h2
        exact h2
      exact ⟨by omega, by omega⟩
    · rw [if_neg (fun hc => h hc.2)]
      have h1 : (x : Int) < (2 : Int) ^ (n - 1) := by
        have h2 : ((x : Nat) : Int) < ((2 ^ (n - 1) : Nat) : Int) :=
          Int.ofNat_lt.mpr (Nat.lt_of_not_le h)
        rw [castPow] at h2
        exact h2
      exact ⟨by omega, by omega⟩

end BasicLemmas

section BitHelpers

theorem mask_eq (k : Nat) : (1 <<< k) - 1 = 2 ^ k - 1 := by
  rw [Nat.shiftLeft_eq, one_mul]

theorem shiftLeft_lor_eq_add (a b k : Nat) (hb : b < 2 ^ k) :
    (a <<< k) ||| b = a * 2 ^ k + b := by
  refine Nat.eq_of_testBit_eq fun i => ?_
  rw [Nat.testBit_lor, Nat.testBit_shiftLeft]
  by_cases h : k ≤ i
  · have hble : b < 2 ^ i := lt_of_lt_of_le hb (Nat.pow_le_pow_right (by norm_num) h)
    rw [Nat.testBit_lt_two_pow hble, Bool.or_false, decide_eq_true h, Bool.true_and]
    rw [Nat.testBit_to_div_mod, Nat.testBit_to_div_mod]
    have hsplit : (2 : Nat) ^ i = 2 ^ k * 2 ^ (i - k) := by
      rw [← pow_add]
      congr 1
      omega
    have hd : (a * 2 ^ k + b) / 2 ^ i = a / 2 ^ (i - k) := by
      rw [hsplit, ← Nat.div_div_eq_div_mul]
      congr 1
      rw [Nat.add_comm, Nat.add_mul_div_right _ _ (by positivity : 0 < 2 ^ k)]
      rw [Nat.div_eq_of_lt hb, Nat.zero_add]
    rw [hd]
  · push_neg at h
    rw [decide_eq_false (by omega : ¬(i ≥ k)), Bool.false_and, Bool.false_or]
    rw [Nat.testBit_to_div_mod, Nat.testBit_to_div_mod]
    have hd1 : (a * 2 ^ k + b) / 2 ^ i = a * 2 ^ (k - i) * 2 ^ i / 2 ^ i + b / 2 ^ i := by
      have hsplit : (2 : Nat) ^ k = 2 ^ (k - i) * 2 ^ i := by
        rw [← pow_add]
        congr 1
        omega
      rw [hsplit, ← mul_assoc, Nat.add_comm,
        Nat.add_mul_div_right _ _ (by positivity : 0 < 2 ^ i),
        Nat.mul_div_cancel _ (by positivity : 0 < 2 ^ i), Nat.add_comm]
    rw [Nat.mul_div_cancel _ (by positivity : 0 < 2 ^ i)] at hd1
    rw [hd1]
    have h2 : a * 2 ^ (k - i) = 2 * (a * 2 ^ (k - i - 1)) := by
      have h3 : (2 : Nat) ^ (k - i) = 2 * 2 ^ (k - i - 1) := by
        rw [← pow_succ']
        congr 1
        omega
      rw [h3]
      ring
    rw [h2, Nat.add_comm, Nat.add_mul_mod_self_left]

theorem lor_all_ones (n a : Nat) (ha : a < 2 ^ n) : a ||| (2 ^ n - 1) = 2 ^ n - 1 := by
  refine Nat.eq_of_testBit_eq fun i => ?_
  rw [Nat.testBit_lor, Nat.testBit_two_pow_sub_one]
  by_cases h : i < n
  · rw [decide_eq_true h, Bool.or_true]
  · rw [decide_eq_false h, Bool.or_false]
    exact Nat.testBit_lt_two_pow
      (lt_of_lt_of_le ha (Nat.pow_le_pow_right (by norm_num) (by omega)))

end BitHelpers

/-- Number of bits in the low half-word: `digits / 2` (src/fixed.h line 111). -/
def lowNum (n : Nat) : Nat := n / 2

/-- Lambda `high_bits` (src/fixed.h line 113): `x >> low_bits_num`. -/
def highBits (n x : Nat) : Nat := x >>> lowNum n

/-- Lambda `low_bits` (src/fixed.h line 114): `x & ((UT(1) << low_bits_num) - 1)`. -/
def lowBits (n x : Nat) : Nat := x &&& ((1 <<< lowNum n) - 1)

/-- Sign test `x >> (bits_num - 1)` read as a bool, used only for signed `T`
(src/fixed.h lines 121-125 and 191-195). -/
def negFlag (n : Nat) (signed : Bool) (x : Nat) : Bool :=
  signed && (x >>> (n - 1) != 0)

/-- Absolute-value step of the safe strategies: when the sign bit is set the
pattern is negated in unsigned arithmetic (`if (neg_a) { a = -a; }`). -/
def negAbs (n : Nat) (signed : Bool) (x : Nat) : Nat :=
  if negFlag n signed x then (2 ^ n - x) % 2 ^ n else x

/-- `L1_L2 = low_bits(a) * low_bits(b)` (src/fixed.h line 139). -/
def mulL1L2 (n a b : Nat) : Nat := lowBits n a * lowBits n b % 2 ^ n

/-- `result_0 = low_bits(L1_L2)` (src/fixed.h line 141). -/
def mulResult0 (n a b : Nat) : Nat := lowBits n (mulL1L2 n a b)

/-- `H1_L2_C = high_bits(a) * low_bits(b) + high_bits(L1_L2)` (line 143). -/
def mulH1L2C (n a b : Nat) : Nat :=
  (highBits n a * lowBits n b + highBits n (mulL1L2 n a b)) % 2 ^ n

/-- `L1_H2_C = low_bits(a) * high_bits(b) + low_bits(H1_L2_C)` (line 145). -/
def mulL1H2C (n a b : Nat) : Nat :=
  (lowBits n a * highBits n b + lowBits n (mulH1L2C n a b)) % 2 ^ n

/-- `result_1 = low_bits(L1_H2_C)` (src/fixed.h line 146). -/
def mulResult1 (n a b : Nat) : Nat := lowBits n (mulL1H2C n a b)

/-- `H1_H2_C = high_bits(a) * high_bits(b) + high_bits(H1_L2_C) + high_bits(L1_H2_C)`
(src/fixed.h line 149). -/
def mulH1H2C (n a b : Nat) : Nat :=
  (highBits n a * highBits n b + highBits n (mulH1L2C n a b) +
    highBits n (mulL1H2C n a b)) % 2 ^ n

/-- `result_low = result_0 | (result_1 << low_bits_num)` (src/fixed.h line 154). -/
def mulResultLow (n a b : Nat) : Nat :=
  (mulResult0 n a b ||| (mulResult1 n a b <<< lowNum n)) % 2 ^ n

/-- `result_high = result_2 | (result_3 << low_bits_num)` with
`result_2 = low_bits(H1_H2_C)` and `result_3 = high_bits(H1_H2_C)`
(src/fixed.h lines 151-155). -/
def mulResultHigh (n a b : Nat) : Nat :=
  (lowBits n (mulH1H2C n a b) ||| (highBits n (mulH1H2C n a b) <<< lowNum n)) % 2 ^ n

/-- Raw pattern produced by the safe multiplication on unsigned magnitudes
(src/fixed.h line 157):
`((result_high & ((UT(1) << scale_bits) - 1)) << (bits_num - scale_bits)) | (result_low >> scale_bits)`. -/
def safeMulMagRaw (n S a b : Nat) : Nat :=
  (((mulResultHigh n a b &&& ((1 <<< S) - 1)) <<< (n - S)) |||
    (mulResultLow n a b >>> S)) % 2 ^ n

/-- `operator*=(const fixed&)` with `fast_multdiv = false`
(src/fixed.h lines 105-171), acting on raw patterns: take absolute values when
signed, long-multiply the magnitudes, extract the middle bits, and negate the
result when operand signs differ. `operator*` (line 89) copies the left
operand and delegates to this. -/
def safeMulRaw (n S : Nat) (signed : Bool) (x y : Nat) : Nat :=
  if signed && (negFlag n signed x != negFlag n signed y) then
    (2 ^ n - safeMulMagRaw n S (negAbs n signed x) (negAbs n signed y)) % 2 ^ n
  else safeMulMagRaw n S (negAbs n signed x) (negAbs n signed y)

/-- `operator*=(const fixed&)` with `fast_multdiv = true` (src/fixed.h
line 168): cast both raws to the widening type (width `w`, signedness
`wSigned`), multiply there, arithmetic-shift right by `S`, narrow back to `T`. -/
def fastMulRaw (n S w : Nat) (wSigned signed : Bool) (x y : Nat) : Nat :=
  encode n (Int.fdiv
    (toInt w wSigned (encode w (toInt n signed x) * encode w (toInt n signed y) % 2 ^ w))
    (2 ^ S))

/-- `operator*=(integer_or_T auto)` (src/fixed.h lines 175-179):
`raw_data *= other` directly. -/
def mulAssignInt (n : Nat) (signed : Bool) (x : Nat) (k : Int) : Nat :=
  encode n (toInt n signed x * k)

/-- Friend `operator*(integer, const fixed&)` (src/fixed.h line 251):
`result = right; result.raw_data *= left`. -/
def intMulFixed (n : Nat) (signed : Bool) (k : Int) (x : Nat) : Nat :=
  encode n (toInt n signed x * k)

section MulMag

theorem lowNum_eq (n l : Nat) (hn : n = 2 * l) : lowNum n = l := by
  unfold lowNum
  omega

theorem lowBits_eq (n l : Nat) (hn : n = 2 * l) (x : Nat) : lowBits n x = x % 2 ^ l := by
  unfold lowBits
  rw [lowNum_eq n l hn, mask_eq, Nat.and_pow_two_sub_one_eq_mod]

theorem highBits_eq (n l : Nat) (hn : n = 2 * l) (x : Nat) : highBits n x = x / 2 ^ l := by
  unfold highBits
  rw [lowNum_eq n l hn, Nat.shiftRight_eq_div_pow]

theorem pow_split (n l : Nat) (hn : n = 2 * l) : (2 : Nat) ^ n = 2 ^ l * 2 ^ l := by
  rw [hn, two_mul, pow_add]

theorem lowBits_lt (n l : Nat) (hn : n = 2 * l) (x : Nat) : lowBits n x < 2 ^ l := by
  rw [lowBits_eq n l hn]
  exact Nat.mod_lt x (by positivity)

theorem highBits_lt (n l : Nat) (hn : n = 2 * l) (x : Nat) (hx : x < 2 ^ n) :
    highBits n x < 2 ^ l := by
  rw [highBits_eq n l hn]
  refine Nat.div_lt_of_lt_mul ?_
  rw [← pow_split n l hn]
  exact hx

theorem halfSum_lt (l p q c : Nat) (hp : p < 2 ^ l) (hq : q < 2 ^ l) (hc : c < 2 ^ l) :
    p * q + c < 2 ^ l * 2 ^ l := by
  have h1 : p * q ≤ (2 ^ l - 1) * (2 ^ l - 1) := Nat.mul_le_mul (by omega) (by omega)
  have h3 : (0 : Nat) < 2 ^ l := by positivity
  have h2 : (2 ^ l - 1 + 1) * (2 ^ l - 1 + 1) =
      (2 ^ l - 1) * (2 ^ l - 1) + 2 * (2 ^ l - 1) + 1 := by ring
  have h4 : 2 ^ l - 1 + 1 = 2 ^ l := by omega
  rw [h4] at h2
  omega

theorem halfSum2_le (l p q c d : Nat) (hp : p < 2 ^ l) (hq : q < 2 ^ l)
    (hc : c < 2 ^ l) (hd : d < 2 ^ l) :
    p * q + c + d ≤ 2 ^ l * 2 ^ l - 1 := by
  have h1 : p * q ≤ (2 ^ l - 1) * (2 ^ l - 1) := Nat.mul_le_mul (by omega) (by omega)
  have h3 : (0 : Nat) < 2 ^ l := by positivity
  have h2 : (2 ^ l - 1 + 1) * (2 ^ l - 1 + 1) =
      (2 ^ l - 1) * (2 ^ l - 1) + 2 * (2 ^ l - 1) + 1 := by ring
  have h4 : 2 ^ l - 1 + 1 = 2 ^ l := by omega
  rw [h4] at h2
  omega

theorem mulL1L2_lt (n a b : Nat) : mulL1L2 n a b < 2 ^ n := by
  unfold mulL1L2
  exact Nat.mod_lt _ (by positivity)

theorem mulH1L2C_lt (n a b : Nat) : mulH1L2C n a b < 2 ^ n := by
  unfold mulH1L2C
  exact Nat.mod_lt _ (by positivity)

theorem mulL1H2C_lt (n a b : Nat) : mulL1H2C n a b < 2 ^ n := by
  unfold mulL1H2C
  exact Nat.mod_lt _ (by positivity)

theorem mulH1H2C_lt (n a b : Nat) : mulH1H2C n a b < 2 ^ n := by
  unfold mulH1H2C
  exact Nat.mod_lt _ (by positivity)

theorem mulL1L2_eq (n l a b : Nat) (hn : n = 2 * l) :
    mulL1L2 n a b = lowBits n a * lowBits n b := by
  unfold mulL1L2
  apply Nat.mod_eq_of_lt
  rw [pow_split n l hn]
  have h1 := halfSum_lt l (lowBits n a) (lowBits n b) 0 (lowBits_lt n l hn a)
    (lowBits_lt n l hn b) (by positivity)
  omega

theorem mulH1L2C_inner_le (n l a b : Nat) (hn : n = 2 * l) (ha : a < 2 ^ n) :
    highBits n a * lowBits n b + highBits n (mulL1L2 n a b) ≤ 2 ^ n - 1 := by
  have h1 := halfSum_lt l (highBits n a) (lowBits n b) (highBits n (mulL1L2 n a b))
    (highBits_lt n l hn a ha) (lowBits_lt n l hn b)
    (highBits_lt n l hn (mulL1L2 n a b) (mulL1L2_lt n a b))
  rw [← pow_split n l hn] at h1
  omega

theorem mulH1L2C_eq (n l a b : Nat) (hn : n = 2 * l) (ha : a < 2 ^ n) :
    mulH1L2C n a b = highBits n a * lowBits n b + highBits n (mulL1L2 n a b) := by
  unfold mulH1L2C
  apply Nat.mod_eq_of_lt
  have h1 := mulH1L2C_inner_le n l a b hn ha
  have h0 : (0 : Nat) < 2 ^ n := by positivity
  omega

theorem mulL1H2C_inner_le (n l a b : Nat) (hn : n = 2 * l) (hb : b < 2 ^ n) :
    lowBits n a * highBits n b + lowBits n (mulH1L2C n a b) ≤ 2 ^ n - 1 := by
  have h1 := halfSum_lt l (lowBits n a) (highBits n b) (lowBits n (mulH1L2C n a b))
    (lowBits_lt n l hn a) (highBits_lt n l hn b hb)
    (lowBits_lt n l hn (mulH1L2C n a b))
  rw [← pow_split n l hn] at h1
  omega

theorem mulL1H2C_eq (n l a b : Nat) (hn : n = 2 * l) (hb : b < 2 ^ n) :
    mulL1H2C n a b = lowBits n a * highBits n b + lowBits n (mulH1L2C n a b) := by
  unfold mulL1H2C
  apply Nat.mod_eq_of_lt
  have h1 := mulL1H2C_inner_le n l a b hn hb
  have h0 : (0 : Nat) < 2 ^ n := by positivity
  omega

theorem mulH1H2C_inner_le (n l a b : Nat) (hn : n = 2 * l) (ha : a < 2 ^ n)
    (hb : b < 2 ^ n) :
    highBits n a * highBits n b + highBits n (mulH1L2C n a b) +
      highBits n (mulL1H2C n a b) ≤ 2 ^ n - 1 := by
  have h1 := halfSum2_le l (highBits n a) (highBits n b) (highBits n (mulH1L2C n a b))
    (highBits n (mulL1H2C n a b)) (highBits_lt n l hn a ha) (highBits_lt n l hn b hb)
    (highBits_lt n l hn (mulH1L2C n a b) (mulH1L2C_lt n a b))
    (highBits_lt n l hn (mulL1H2C n a b) (mulL1H2C_lt n a b))
  rw [← pow_split n l hn] at h1
  omega

theorem mulH1H2C_eq (n l a b : Nat) (hn : n = 2 * l) (ha : a < 2 ^ n) (hb : b < 2 ^ n) :
    mulH1H2C n a b = highBits n a * highBits n b + highBits n (mulH1L2C n a b) +
      highBits n (mulL1H2C n a b) := by
  unfold mulH1H2C
  apply Nat.mod_eq_of_lt
  have h1 := mulH1H2C_inner_le n l a b hn ha hb
  have h0 : (0 : Nat) < 2 ^ n := by positivity
  omega

end MulMag

section MulAssemble

theorem mulResult0_lt (n l a b : Nat) (hn : n = 2 * l) : mulResult0 n a b < 2 ^ l := by
  unfold mulResult0
  exact lowBits_lt n l hn _

theorem mulResult1_lt (n l a b : Nat) (hn : n = 2 * l) : mulResult1 n a b < 2 ^ l := by
  unfold mulResult1
  exact lowBits_lt n l hn _

theorem mulResultLow_eq (n l a b : Nat) (hn : n = 2 * l) :
    mulResultLow n a b = mulResult1 n a b * 2 ^ l + mulResult0 n a b := by
  unfold mulResultLow
  rw [lowNum_eq n l hn, Nat.lor_comm, shiftLeft_lor_eq_add _ _ _ (mulResult0_lt n l a b hn)]
  apply Nat.mod_eq_of_lt
  have h1 : mulResult1 n a b ≤ 2 ^ l - 1 := by
    have h5 := mulResult1_lt n l a b hn
    omega
  have h2 : mulResult1 n a b * 2 ^ l ≤ (2 ^ l - 1) * 2 ^ l := Nat.mul_le_mul_right _ h1
  have h4 : (2 : Nat) ^ l - 1 + 1 = 2 ^ l := by
    have h6 : (0 : Nat) < 2 ^ l := by positivity
    omega
  have h3 : (2 ^ l - 1) * 2 ^ l + 2 ^ l = 2 ^ l * 2 ^ l := by
    calc (2 ^ l - 1) * 2 ^ l + 2 ^ l = ((2 ^ l - 1) + 1) * 2 ^ l := by ring
      _ = 2 ^ l * 2 ^ l := by rw [h4]
  have h0 := mulResult0_lt n l a b hn
  rw [pow_split n l hn]
  omega

theorem mulResultHigh_eq (n l a b : Nat) (hn : n = 2 * l) :
    mulResultHigh n a b = mulH1H2C n a b := by
  unfold mulResultHigh
  rw [lowNum_eq n l hn, Nat.lor_comm, shiftLeft_lor_eq_add _ _ _ (lowBits_lt n l hn _)]
  rw [highBits_eq n l hn, lowBits_eq n l hn]
  have e : mulH1H2C n a b / 2 ^ l * 2 ^ l + mulH1H2C n a b % 2 ^ l = mulH1H2C n a b := by
    rw [mul_comm]
    exact Nat.div_add_mod _ _
  rw [e]
  exact Nat.mod_eq_of_lt (mulH1H2C_lt n a b)

theorem longmul_identity (p ah al bh bl X1 X2 X3 d1 m1 d2 m2 d3 m3 a b : Int)
    (hC1 : X1 = al * bl) (hC2 : X2 = ah * bl + d1) (hC3 : X3 = al * bh + m2)
    (hF1 : p * d1 + m1 = X1) (hF2 : p * d2 + m2 = X2) (hF3 : p * d3 + m3 = X3)
    (hFa : p * ah + al = a) (hFb : p * bh + bl = b) :
    (ah * bh + d2 + d3) * (p * p) + (m3 * p + m1) = a * b := by
  linear_combination hF1 + hC1 + p * hF2 + p * hC2 + p * hF3 + p * hC3 + b * hFa +
    (p * ah + al) * hFb

theorem mulResult_exact (n l a b : Nat) (hn : n = 2 * l) (ha : a < 2 ^ n)
    (hb : b < 2 ^ n) :
    mulResultHigh n a b * 2 ^ n + mulResultLow n a b = a * b := by
  have hC1 : mulL1L2 n a b = a % 2 ^ l * (b % 2 ^ l) := by
    rw [mulL1L2_eq n l a b hn]
    simp only [lowBits_eq n l hn]
  have hC2 : mulH1L2C n a b = a / 2 ^ l * (b % 2 ^ l) + mulL1L2 n a b / 2 ^ l := by
    rw [mulH1L2C_eq n l a b hn ha]
    simp only [lowBits_eq n l hn, highBits_eq n l hn]
  have hC3 : mulL1H2C n a b = a % 2 ^ l * (b / 2 ^ l) + mulH1L2C n a b % 2 ^ l := by
    rw [mulL1H2C_eq n l a b hn hb]
    simp only [lowBits_eq n l hn, highBits_eq n l hn]
  have hC4 : mulH1H2C n a b = a / 2 ^ l * (b / 2 ^ l) + mulH1L2C n a b / 2 ^ l +
      mulL1H2C n a b / 2 ^ l := by
    rw [mulH1H2C_eq n l a b hn ha hb]
    simp only [lowBits_eq n l hn, highBits_eq n l hn]
  have hR0 : mulResult0 n a b = mulL1L2 n a b % 2 ^ l := by
    unfold mulResult0
    rw [lowBits_eq n l hn]
  have hR1 : mulResult1 n a b = mulL1H2C n a b % 2 ^ l := by
    unfold mulResult1
    rw [lowBits_eq n l hn]
  rw [mulResultHigh_eq n l a b hn, hC4, mulResultLow_eq n l a b hn, hR1, hR0,
    pow_split n l hn]
  exact_mod_cast longmul_identity ((2 ^ l : Nat) : Int) ((a / 2 ^ l : Nat) : Int)
    ((a % 2 ^ l : Nat) : Int) ((b / 2 ^ l : Nat) : Int) ((b % 2 ^ l : Nat) : Int)
    ((mulL1L2 n a b : Nat) : Int) ((mulH1L2C n a b : Nat) : Int)
    ((mulL1H2C n a b : Nat) : Int)
    ((mulL1L2 n a b / 2 ^ l : Nat) : Int) ((mulL1L2 n a b % 2 ^ l : Nat) : Int)
    ((mulH1L2C n a b / 2 ^ l : Nat) : Int) ((mulH1L2C n a b % 2 ^ l : Nat) : Int)
    ((mulL1H2C n a b / 2 ^ l : Nat) : Int) ((mulL1H2C n a b % 2 ^ l : Nat) : Int)
    ((a : Nat) : Int) ((b : Nat) : Int)
    (by exact_mod_cast hC1) (by exact_mod_cast hC2) (by exact_mod_cast hC3)
    (by exact_mod_cast Nat.div_add_mod (mulL1L2 n a b) (2 ^ l))
    (by exact_mod_cast Nat.div_add_mod (mulH1L2C n a b) (2 ^ l))
    (by exact_mod_cast Nat.div_add_mod (mulL1H2C n a b) (2 ^ l))
    (by exact_mod_cast Nat.div_add_mod a (2 ^ l))
    (by exact_mod_cast Nat.div_add_mod b (2 ^ l))

theorem middle_bits_eq (N n S : Nat) (hS : S ≤ n) :
    N / 2 ^ n % 2 ^ S * 2 ^ (n - S) + N % 2 ^ n / 2 ^ S = N / 2 ^ S % 2 ^ n := by
  have e1 : (2 : Nat) ^ n = 2 ^ S * 2 ^ (n - S) := by
    rw [← pow_add]
    congr 1
    omega
  have e2 : (2 : Nat) ^ n = 2 ^ (n - S) * 2 ^ S := by
    rw [← pow_add]
    congr 1
    omega
  have hR_lt : N % 2 ^ n < 2 ^ n := Nat.mod_lt N (by positivity)
  have hr_lt : N % 2 ^ n / 2 ^ S < 2 ^ (n - S) := by
    apply Nat.div_lt_of_lt_mul
    rw [← e1]
    exact hR_lt
  have hA : N / 2 ^ S = 2 ^ (n - S) * (N / 2 ^ n) + N % 2 ^ n / 2 ^ S := by
    conv_lhs => rw [(Nat.div_add_mod N (2 ^ n)).symm]
    rw [e1, mul_assoc, Nat.mul_add_div (by positivity)]
  have hq := Nat.div_add_mod (N / 2 ^ n) (2 ^ S)
  have hdecomp : 2 ^ (n - S) * (N / 2 ^ n) + N % 2 ^ n / 2 ^ S =
      (2 ^ (n - S) * (N / 2 ^ n % 2 ^ S) + N % 2 ^ n / 2 ^ S) +
        2 ^ n * (N / 2 ^ n / 2 ^ S) := by
    calc 2 ^ (n - S) * (N / 2 ^ n) + N % 2 ^ n / 2 ^ S
        = 2 ^ (n - S) * (2 ^ S * (N / 2 ^ n / 2 ^ S) + N / 2 ^ n % 2 ^ S) +
            N % 2 ^ n / 2 ^ S := by rw [hq]
      _ = (2 ^ (n - S) * (N / 2 ^ n % 2 ^ S) + N % 2 ^ n / 2 ^ S) +
            2 ^ (n - S) * 2 ^ S * (N / 2 ^ n / 2 ^ S) := by ring
      _ = (2 ^ (n - S) * (N / 2 ^ n % 2 ^ S) + N % 2 ^ n / 2 ^ S) +
            2 ^ n * (N / 2 ^ n / 2 ^ S) := by rw [← e2]
  have hbound : 2 ^ (n - S) * (N / 2 ^ n % 2 ^ S) + N % 2 ^ n / 2 ^ S < 2 ^ n := by
    have h1 : N / 2 ^ n % 2 ^ S < 2 ^ S := Nat.mod_lt _ (by positivity)
    have h3 : 2 ^ (n - S) * (N / 2 ^ n % 2 ^ S + 1) ≤ 2 ^ (n - S) * 2 ^ S :=
      Nat.mul_le_mul_left _ (by omega)
    have h2 : 2 ^ (n - S) * (N / 2 ^ n % 2 ^ S) + 2 ^ (n - S) =
        2 ^ (n - S) * (N / 2 ^ n % 2 ^ S + 1) := by ring
    rw [← e2] at h3
    omega
  rw [hA, hdecomp, Nat.add_mul_mod_self_left, Nat.mod_eq_of_lt hbound]
  ring

theorem mulResultLow_lt (n a b : Nat) : mulResultLow n a b < 2 ^ n := by
  unfold mulResultLow
  exact Nat.mod_lt _ (by positivity)

theorem safeMulMagRaw_eq (n l S a b : Nat) (hn : n = 2 * l) (hS : S ≤ n)
    (ha : a < 2 ^ n) (hb : b < 2 ^ n) :
    safeMulMagRaw n S a b = a * b / 2 ^ S % 2 ^ n := by
  unfold safeMulMagRaw
  rw [mask_eq, Nat.and_pow_two_sub_one_eq_mod, Nat.shiftRight_eq_div_pow]
  have hsplit : (2 : Nat) ^ n = 2 ^ S * 2 ^ (n - S) := by
    rw [← pow_add]
    congr 1
    omega
  have hdiv_lt : mulResultLow n a b / 2 ^ S < 2 ^ (n - S) := by
    apply Nat.div_lt_of_lt_mul
    rw [← hsplit]
    exact mulResultLow_lt n a b
  rw [shiftLeft_lor_eq_add _ _ _ hdiv_lt]
  have hP := mulResult_exact n l a b hn ha hb
  have hRH : a * b / 2 ^ n = mulResultHigh n a b := by
    rw [← hP, mul_comm (mulResultHigh n a b) (2 ^ n), Nat.mul_add_div (by positivity),
      Nat.div_eq_of_lt (mulResultLow_lt n a b), Nat.add_zero]
  have hRL : a * b % 2 ^ n = mulResultLow n a b := by
    rw [← hP, mul_comm (mulResultHigh n a b) (2 ^ n), Nat.mul_add_mod,
      Nat.mod_eq_of_lt (mulResultLow_lt n a b)]
  rw [← hRH, ← hRL, middle_bits_eq (a * b) n S hS]
  exact Nat.mod_mod_of_dvd _ dvd_rfl

end MulAssemble

section SignHelpers

theorem negFlag_true_iff (n : Nat) (signed : Bool) (x : Nat) (hn : 0 < n) (hx : x < 2 ^ n) :
    negFlag n signed x = true ↔ toInt n signed x < 0 := by
  unfold negFlag
  cases signed with
  | false =>
    simp only [Bool.false_and, toInt_nonneg_eq]
    constructor
    · intro hc
      exact absurd hc Bool.false_ne_true
    · intro hc
      exact absurd hc (by omega)
  | true =>
    rw [Bool.true_and, toInt_lt_cases n x]
    have hxI : (x : Int) < 2 ^ n := by
      have h2 : ((x : Nat) : Int) < ((2 ^ n : Nat) : Int) := Int.ofNat_lt.mpr hx
      rw [castPow] at h2
      exact h2
    rw [Nat.shiftRight_eq_div_pow, bne_iff_ne]
    constructor
    · intro hne
      have hge : 2 ^ (n - 1) ≤ x := by
        by_contra hlt
        exact hne (Nat.div_eq_of_lt (by omega))
      rw [if_pos hge]
      omega
    · intro hlt
      by_cases hge : 2 ^ (n - 1) ≤ x
      · intro h0
        have h1 := (Nat.div_eq_zero_iff (by positivity : 0 < 2 ^ (n - 1))).mp h0
        omega
      · rw [if_neg hge] at hlt
        exact absurd hlt (not_lt.mpr (Int.natCast_nonneg x))

theorem negAbs_lt (n : Nat) (signed : Bool) (x : Nat) (hx : x < 2 ^ n) :
    negAbs n signed x < 2 ^ n := by
  unfold negAbs
  by_cases h : negFlag n signed x = true
  · rw [if_pos h]
    exact Nat.mod_lt _ (by positivity)
  · rw [if_neg h]
    exact hx

theorem negAbs_eq (n : Nat) (signed : Bool) (x : Nat) (hn : 0 < n) (hx : x < 2 ^ n) :
    negAbs n signed x = (toInt n signed x).natAbs := by
  unfold negAbs
  by_cases h : negFlag n signed x = true
  · rw [if_pos h]
    have hneg : toInt n signed x < 0 := (negFlag_true_iff n signed x hn hx).mp h
    have hval : toInt n signed x = (x : Int) - 2 ^ n := by
      unfold toInt at hneg ⊢
      by_cases hc : (signed = true) ∧ 2 ^ (n - 1) ≤ x
      · rw [if_pos hc]
      · rw [if_neg hc] at hneg
        exact absurd hneg (not_lt.mpr (Int.natCast_nonneg x))
    have hxI : (x : Int) < 2 ^ n := by
      have h2 : ((x : Nat) : Int) < ((2 ^ n : Nat) : Int) := Int.ofNat_lt.mpr hx
      rw [castPow] at h2
      exact h2
    have hx1 : 1 ≤ x := by
      by_contra h0
      have hx0 : x = 0 := by omega
      subst hx0
      have hp : 0 < 2 ^ (n - 1) := by positivity
      unfold toInt at hneg
      rw [if_neg (fun hc => absurd hc.2 (by omega))] at hneg
      omega
    have hmod : (2 ^ n - x) % 2 ^ n = 2 ^ n - x := by
      apply Nat.mod_eq_of_lt
      omega
    rw [hmod]
    have hcast : ((2 ^ n : Nat) : Int) = (2 : Int) ^ n := castPow n
    omega
  · rw [if_neg h]
    have hnn : 0 ≤ toInt n signed x := by
      have := (negFlag_true_iff n signed x hn hx).not.mp h
      omega
    have hval : toInt n signed x = (x : Int) := by
      unfold toInt at hnn ⊢
      by_cases hc : (signed = true) ∧ 2 ^ (n - 1) ≤ x
      · rw [if_pos hc] at hnn
        have hxI : (x : Int) < 2 ^ n := by
          have h2 : ((x : Nat) : Int) < ((2 ^ n : Nat) : Int) := Int.ofNat_lt.mpr hx
          rw [castPow] at h2
          exact h2
        omega
      · rw [if_neg hc]
    rw [hval, Int.natAbs_ofNat]

theorem neg_pattern (n m : Nat) (hm : m < 2 ^ n) :
    (2 ^ n - m) % 2 ^ n = encode n (-(m : Int)) := by
  by_cases h0 : m = 0
  · subst h0
    simp only [Nat.sub_zero, Nat.mod_self]
    unfold encode
    norm_num
  · have hmod : (2 ^ n - m) % 2 ^ n = 2 ^ n - m := Nat.mod_eq_of_lt (by omega)
    have hc := encode_of_neg n (-(m : Int))
      (by
        have hcast : ((2 ^ n : Nat) : Int) = (2 : Int) ^ n := castPow n
        omega)
      (by omega)
    have hcast : ((2 ^ n : Nat) : Int) = (2 : Int) ^ n := castPow n
    omega

theorem truncDiv_natAbs (v : Int) (k : Nat) : (truncDiv v k).natAbs = v.natAbs / k := by
  unfold truncDiv
  rw [Int.natAbs_mul, Int.natAbs_sign]
  by_cases h : v = 0
  · subst h
    simp
  · rw [if_neg h, one_mul, Int.natAbs_ofNat]

theorem truncDiv_of_nonneg (v : Int) (k : Nat) (h : 0 ≤ v) :
    truncDiv v k = ((v.natAbs / k : Nat) : Int) := by
  unfold truncDiv
  rcases lt_or_eq_of_le h with h1 | h1
  · rw [Int.sign_eq_one_of_pos h1, one_mul]
  · rw [← h1]
    simp

theorem truncDiv_of_nonpos (v : Int) (k : Nat) (h : v ≤ 0) :
    truncDiv v k = -((v.natAbs / k : Nat) : Int) := by
  unfold truncDiv
  rcases lt_or_eq_of_le h with h1 | h1
  · rw [Int.sign_eq_neg_one_of_neg h1]
    ring
  · rw [h1]
    simp

theorem inRange_natAbs_lt (n : Nat) (signed : Bool) (v : Int) (hn : 0 < n)
    (h : inRange n signed v) : v.natAbs < 2 ^ n := by
  have hs := halfPow n hn
  have hApos := two_pow_pos (n - 1)
  have hcast : ((2 ^ n : Nat) : Int) = (2 : Int) ^ n := castPow n
  unfold inRange at h
  cases signed with
  | false =>
    rw [if_neg Bool.false_ne_true] at h
    omega
  | true =>
    rw [if_pos rfl] at h
    omega

end SignHelpers

section SafeMulMain

theorem safeMulRaw_toInt (n l S : Nat) (signed : Bool) (x y : Nat)
    (hn : n = 2 * l) (hl : 0 < l) (hS : S ≤ n) (hx : x < 2 ^ n) (hy : y < 2 ^ n)
    (hfit : inRange n signed (truncDiv (toInt n signed x * toInt n signed y) (2 ^ S))) :
    toInt n signed (safeMulRaw n S signed x y) =
      truncDiv (toInt n signed x * toInt n signed y) (2 ^ S) := by
  have hn0 : 0 < n := by omega
  have hvx := negAbs_eq n signed x hn0 hx
  have hvy := negAbs_eq n signed y hn0 hy
  have hax := negAbs_lt n signed x hx
  have hay := negAbs_lt n signed y hy
  have hmag := safeMulMagRaw_eq n l S (negAbs n signed x) (negAbs n signed y) hn hS hax hay
  rw [hvx, hvy] at hmag
  have hPabs : (toInt n signed x * toInt n signed y).natAbs =
      (toInt n signed x).natAbs * (toInt n signed y).natAbs := Int.natAbs_mul _ _
  have habs : (truncDiv (toInt n signed x * toInt n signed y) (2 ^ S)).natAbs =
      (toInt n signed x).natAbs * (toInt n signed y).natAbs / 2 ^ S := by
    rw [truncDiv_natAbs, hPabs]
  have hq_lt : (toInt n signed x).natAbs * (toInt n signed y).natAbs / 2 ^ S < 2 ^ n := by
    rw [← habs]
    exact inRange_natAbs_lt n signed _ hn0 hfit
  have hmod : (toInt n signed x).natAbs * (toInt n signed y).natAbs / 2 ^ S % 2 ^ n =
      (toInt n signed x).natAbs * (toInt n signed y).natAbs / 2 ^ S :=
    Nat.mod_eq_of_lt hq_lt
  have hfx := negFlag_true_iff n signed x hn0 hx
  have hfy := negFlag_true_iff n signed y hn0 hy
  unfold safeMulRaw
  by_cases hneg : (signed && (negFlag n signed x != negFlag n signed y)) = true
  · rw [if_pos hneg, hvx, hvy, hmag, hmod, neg_pattern n _ hq_lt]
    obtain ⟨hsg, hfl⟩ := (Bool.and_eq_true _ _).mp hneg
    have hdiff : negFlag n signed x ≠ negFlag n signed y := bne_iff_ne.mp hfl
    have hprod : toInt n signed x * toInt n signed y ≤ 0 := by
      cases hpx : negFlag n signed x with
      | false =>
        have hpy : negFlag n signed y = true := by
          cases hpy : negFlag n signed y
          · exact absurd (hpx.trans hpy.symm) hdiff
          · rfl
        have h1 : 0 ≤ toInt n signed x := by
          refine le_of_not_lt fun hc => ?_
          have h3 := hfx.mpr hc
          rw [hpx] at h3
          exact Bool.noConfusion h3
        have h2 : toInt n signed y < 0 := hfy.mp hpy
        exact mul_nonpos_iff.mpr (Or.inl ⟨h1, le_of_lt h2⟩)
      | true =>
        have hpy : negFlag n signed y = false := by
          cases hpy : negFlag n signed y
          · rfl
          · exact absurd (hpx.trans hpy.symm) hdiff
        have h1 : toInt n signed x < 0 := hfx.mp hpx
        have h2 : 0 ≤ toInt n signed y := by
          refine le_of_not_lt fun hc => ?_
          have h3 := hfy.mpr hc
          rw [hpy] at h3
          exact Bool.noConfusion h3
        exact mul_nonpos_iff.mpr (Or.inr ⟨le_of_lt h1, h2⟩)
    have href : truncDiv (toInt n signed x * toInt n signed y) (2 ^ S) =
        -((((toInt n signed x).natAbs * (toInt n signed y).natAbs / 2 ^ S : Nat)) : Int) := by
      rw [truncDiv_of_nonpos _ _ hprod, hPabs]
    rw [href]
    exact toInt_encode n signed _ hn0 (by rwa [href] at hfit)
  · rw [if_neg hneg, hvx, hvy, hmag, hmod]
    have hprod : 0 ≤ toInt n signed x * toInt n signed y := by
      cases hsg : signed with
      | false =>
        rw [toInt_nonneg_eq, toInt_nonneg_eq]
        exact mul_nonneg (Int.natCast_nonneg x) (Int.natCast_nonneg y)
      | true =>
        rw [hsg] at hneg hfx hfy
        have heq : negFlag n true x = negFlag n true y := by
          by_contra hne
          exact hneg (by
            rw [Bool.true_and]
            exact bne_iff_ne.mpr hne)
        cases hpx : negFlag n true x with
        | false =>
          have hpy : negFlag n true y = false := by rw [← heq, hpx]
          have h1 : 0 ≤ toInt n true x := by
            refine le_of_not_lt fun hc => ?_
            have h3 := hfx.mpr hc
            rw [hpx] at h3
            exact Bool.noConfusion h3
          have h2 : 0 ≤ toInt n true y := by
            refine le_of_not_lt fun hc => ?_
            have h3 := hfy.mpr hc
            rw [hpy] at h3
            exact Bool.noConfusion h3
          exact mul_nonneg h1 h2
        | true =>
          have hpy : negFlag n true y = true := by rw [← heq, hpx]
          have h1 := hfx.mp hpx
          have h2 := hfy.mp hpy
          exact le_of_lt (mul_pos_of_neg_of_neg h1 h2)
    have href : truncDiv (toInt n signed x * toInt n signed y) (2 ^ S) =
        (((toInt n signed x).natAbs * (toInt n signed y).natAbs / 2 ^ S : Nat) : Int) := by
      rw [truncDiv_of_nonneg _ _ hprod, hPabs]
    have henc : encode n (((toInt n signed x).natAbs * (toInt n signed y).natAbs /
        2 ^ S : Nat) : Int) =
        (toInt n signed x).natAbs * (toInt n signed y).natAbs / 2 ^ S := by
      have hcast : ((2 ^ n : Nat) : Int) = (2 : Int) ^ n := castPow n
      have h2 := encode_of_nonneg n
        (((toInt n signed x).natAbs * (toInt n signed y).natAbs / 2 ^ S : Nat) : Int)
        (Int.natCast_nonneg _) (by omega)
      exact_mod_cast h2
    calc toInt n signed ((toInt n signed x).natAbs * (toInt n signed y).natAbs / 2 ^ S)
        = toInt n signed (encode n (((toInt n signed x).natAbs *
            (toInt n signed y).natAbs / 2 ^ S : Nat) : Int)) := by rw [henc]
      _ = (((toInt n signed x).natAbs * (toInt n signed y).natAbs / 2 ^ S : Nat) : Int) :=
          toInt_encode n signed _ hn0 (by rwa [href] at hfit)
      _ = truncDiv (toInt n signed x * toInt n signed y) (2 ^ S) := href.symm

end SafeMulMain

/-- Value `t = -(div_high >> (bits_num - 1))` of the long-division loop
(src/fixed.h line 202): all ones when the high bit of `div_high` is set. -/
def divT (n h : Nat) : Nat := (2 ^ n - h >>> (n - 1)) % 2 ^ n

/-- Shifted `div_high = (div_high << 1) | (div_low >> (bits_num - 1))`
(src/fixed.h line 204). -/
def divShiftHigh (n : Nat) (s : Nat × Nat) : Nat :=
  ((s.1 <<< 1) ||| (s.2 >>> (n - 1))) % 2 ^ n

/-- Shifted `div_low <<= 1` (src/fixed.h line 205). -/
def divShiftLow (n : Nat) (s : Nat × Nat) : Nat := (s.2 <<< 1) % 2 ^ n

/-- One iteration of the shift-and-subtract long-division loop
(src/fixed.h lines 200-211) on the working pair `(div_high, div_low)`:
shift the pair left one bit, then if `(div_high | t) >= b` subtract the
divisor from `div_high` (wrapping) and set the incoming low bit. -/
def divStep (n b : Nat) (s : Nat × Nat) : Nat × Nat :=
  if b ≤ (divShiftHigh n s ||| divT n s.1) then
    ((divShiftHigh n s + (2 ^ n - b)) % 2 ^ n, (divShiftLow n s + 1) % 2 ^ n)
  else (divShiftHigh n s, divShiftLow n s)

/-- Unsigned-magnitude part of `operator/=(const fixed&)` with
`fast_multdiv = false` (src/fixed.h lines 197-211): seed the double-width
working pair with the dividend pre-shifted by `scale_bits`, run `bits_num`
iterations, and read the quotient out of `div_low`. -/
def safeDivMagRaw (n S a b : Nat) : Nat :=
  ((divStep n b)^[n] ((if S = 0 then 0 else a >>> (n - S)), (a <<< S) % 2 ^ n)).2

/-- `operator/=(const fixed&)` with `fast_multdiv = false`
(src/fixed.h lines 180-226) on raw patterns: absolute values when signed,
shift-and-subtract long division on the magnitudes, negation of `div_low`
when operand signs differ. `operator/` (line 90) copies and delegates. -/
def safeDivRaw (n S : Nat) (signed : Bool) (x y : Nat) : Nat :=
  if signed && (negFlag n signed x != negFlag n signed y) then
    (2 ^ n - safeDivMagRaw n S (negAbs n signed x) (negAbs n signed y)) % 2 ^ n
  else safeDivMagRaw n S (negAbs n signed x) (negAbs n signed y)

section SafeDivMain

theorem divShiftHigh_pair (n r L : Nat) :
    divShiftHigh n (r, L) = ((r <<< 1) ||| (L >>> (n - 1))) % 2 ^ n := rfl

theorem divShiftLow_pair (n r L : Nat) : divShiftLow n (r, L) = (L <<< 1) % 2 ^ n := rfl

theorem divStep_pair (n b r L : Nat) :
    divStep n b (r, L) =
      if b ≤ (divShiftHigh n (r, L) ||| divT n r) then
        ((divShiftHigh n (r, L) + (2 ^ n - b)) % 2 ^ n, (divShiftLow n (r, L) + 1) % 2 ^ n)
      else (divShiftHigh n (r, L), divShiftLow n (r, L)) := rfl

theorem divT_low (n r : Nat) (h : r < 2 ^ (n - 1)) : divT n r = 0 := by
  unfold divT
  rw [Nat.shiftRight_eq_div_pow, Nat.div_eq_of_lt h, Nat.sub_zero, Nat.mod_self]

theorem divT_high (n r : Nat) (hn : 0 < n) (h : 2 ^ (n - 1) ≤ r) (hr : r < 2 ^ n) :
    divT n r = 2 ^ n - 1 := by
  unfold divT
  rw [Nat.shiftRight_eq_div_pow]
  have hsplit : (2 : Nat) ^ n = 2 ^ (n - 1) * 2 := by
    rw [← pow_succ]
    congr 1
    omega
  have h1 : 1 ≤ r / 2 ^ (n - 1) := (Nat.one_le_div_iff (by positivity)).mpr h
  have h2 : r / 2 ^ (n - 1) < 2 := by
    apply Nat.div_lt_of_lt_mul
    omega
  have h3 : r / 2 ^ (n - 1) = 1 := by omega
  rw [h3]
  exact Nat.mod_eq_of_lt (by omega)

theorem divStep_eq (n b N i : Nat) (hn : 0 < n) (hb : 0 < b) (hblt : b < 2 ^ n)
    (hNfit : N < b * 2 ^ n) (hi : i < n) :
    divStep n b (N / 2 ^ (n - i) % b, N % 2 ^ (n - i) * 2 ^ i + N / 2 ^ (n - i) / b) =
      (N / 2 ^ (n - (i + 1)) % b,
        N % 2 ^ (n - (i + 1)) * 2 ^ (i + 1) + N / 2 ^ (n - (i + 1)) / b) := by
  have hnis : n - (i + 1) = n - i - 1 := by omega
  have f1 : (2 : Nat) ^ (n - i) = 2 ^ (n - i - 1) * 2 := by
    rw [← pow_succ]
    congr 1
    omega
  have hsplitn : (2 : Nat) ^ n = 2 ^ (n - 1) * 2 := by
    rw [← pow_succ]
    congr 1
    omega
  have hMM : N / 2 ^ (n - i - 1) / 2 = N / 2 ^ (n - i) := by
    rw [Nat.div_div_eq_div_mul, ← f1]
  have hM' : N / 2 ^ (n - i - 1) = 2 * (N / 2 ^ (n - i)) + N / 2 ^ (n - i - 1) % 2 := by
    rw [← hMM]
    omega
  have hbit_lt : N / 2 ^ (n - i - 1) % 2 < 2 := Nat.mod_lt _ (by norm_num)
  have hA'mod : N % 2 ^ (n - i) % 2 ^ (n - i - 1) = N % 2 ^ (n - i - 1) := by
    apply Nat.mod_mod_of_dvd
    rw [f1]
    exact dvd_mul_right _ _
  have hAbit : N % 2 ^ (n - i) / 2 ^ (n - i - 1) = N / 2 ^ (n - i - 1) % 2 := by
    rw [f1]
    exact Nat.mod_mul_right_div_self N (2 ^ (n - i - 1)) 2
  have hAdecomp : N % 2 ^ (n - i) =
      2 ^ (n - i - 1) * (N / 2 ^ (n - i - 1) % 2) + N % 2 ^ (n - i - 1) := by
    conv_lhs => rw [← Nat.div_add_mod (N % 2 ^ (n - i)) (2 ^ (n - i - 1))]
    rw [hA'mod, hAbit]
  have hq_lt : N / 2 ^ (n - i) / b < 2 ^ i := by
    rw [Nat.div_div_eq_div_mul]
    apply Nat.div_lt_of_lt_mul
    calc N < b * 2 ^ n := hNfit
      _ = 2 ^ (n - i) * b * 2 ^ i := by
          rw [show (2 : Nat) ^ n = 2 ^ (n - i) * 2 ^ i from by rw [← pow_add]; congr 1; omega]
          ring
  have hr_lt : N / 2 ^ (n - i) % b < b := Nat.mod_lt _ hb
  have hA'_lt : N % 2 ^ (n - i - 1) < 2 ^ (n - i - 1) := Nat.mod_lt _ (by positivity)
  have hLbit : (N % 2 ^ (n - i) * 2 ^ i + N / 2 ^ (n - i) / b) >>> (n - 1) =
      N / 2 ^ (n - i - 1) % 2 := by
    rw [Nat.shiftRight_eq_div_pow]
    have e1 : (2 : Nat) ^ (n - 1) = 2 ^ i * 2 ^ (n - i - 1) := by
      rw [← pow_add]
      congr 1
      omega
    rw [e1, ← Nat.div_div_eq_div_mul]
    have e2 : (N % 2 ^ (n - i) * 2 ^ i + N / 2 ^ (n - i) / b) / 2 ^ i =
        N % 2 ^ (n - i) := by
      rw [Nat.add_comm, Nat.add_mul_div_right _ _ (by positivity : (0 : Nat) < 2 ^ i),
        Nat.div_eq_of_lt hq_lt, Nat.zero_add]
    rw [e2, hAbit]
  have hpow_ni : (2 : Nat) ^ (n - i - 1) * 2 ^ (i + 1) = 2 ^ n := by
    rw [← pow_add]
    congr 1
    omega
  have hpow_i1 : (2 : Nat) ^ (i + 1) = 2 * 2 ^ i := by
    rw [pow_succ]
    ring
  have hlow_bound : N % 2 ^ (n - i - 1) * 2 ^ (i + 1) + 2 * (N / 2 ^ (n - i) / b) + 1 <
      2 ^ n := by
    have h2 : (N % 2 ^ (n - i - 1) + 1) * 2 ^ (i + 1) ≤ 2 ^ (n - i - 1) * 2 ^ (i + 1) :=
      Nat.mul_le_mul_right _ (by omega)
    have h3 : (N % 2 ^ (n - i - 1) + 1) * 2 ^ (i + 1) =
        N % 2 ^ (n - i - 1) * 2 ^ (i + 1) + 2 ^ (i + 1) := by ring
    rw [hpow_ni] at h2
    omega
  have hlow : divShiftLow n (N / 2 ^ (n - i) % b,
      N % 2 ^ (n - i) * 2 ^ i + N / 2 ^ (n - i) / b) =
      N % 2 ^ (n - i - 1) * 2 ^ (i + 1) + 2 * (N / 2 ^ (n - i) / b) := by
    rw [divShiftLow_pair, Nat.shiftLeft_eq]
    have e3 : (N % 2 ^ (n - i) * 2 ^ i + N / 2 ^ (n - i) / b) * 2 ^ 1 =
        N % 2 ^ (n - i - 1) * 2 ^ (i + 1) + 2 * (N / 2 ^ (n - i) / b) +
          N / 2 ^ (n - i - 1) % 2 * 2 ^ n := by
      conv_lhs => rw [hAdecomp]
      rw [← hpow_ni]
      ring
    rw [e3, Nat.add_mul_mod_self_right, Nat.mod_eq_of_lt (by omega)]
  have hhigh : divShiftHigh n (N / 2 ^ (n - i) % b,
      N % 2 ^ (n - i) * 2 ^ i + N / 2 ^ (n - i) / b) =
      (2 * (N / 2 ^ (n - i) % b) + N / 2 ^ (n - i - 1) % 2) % 2 ^ n := by
    rw [divShiftHigh_pair, hLbit,
      shiftLeft_lor_eq_add _ _ _ (show N / 2 ^ (n - i - 1) % 2 < 2 ^ 1 from by omega),
      pow_one]
    congr 1
    ring
  have hMdm : b * (N / 2 ^ (n - i) / b) + N / 2 ^ (n - i) % b = N / 2 ^ (n - i) :=
    Nat.div_add_mod _ _
  have hsm_lt : 2 * (N / 2 ^ (n - i) % b) + N / 2 ^ (n - i - 1) % 2 - b < b := by
    omega
  have hsm_ltn : 2 * (N / 2 ^ (n - i) % b) + N / 2 ^ (n - i - 1) % 2 - b < 2 ^ n :=
    lt_trans hsm_lt hblt
  have hlv : (N % 2 ^ (n - i - 1) * 2 ^ (i + 1) + 2 * (N / 2 ^ (n - i) / b) + 1) %
      2 ^ n = N % 2 ^ (n - i - 1) * 2 ^ (i + 1) + 2 * (N / 2 ^ (n - i) / b) + 1 :=
    Nat.mod_eq_of_lt hlow_bound
  rw [divStep_pair, hhigh, hlow, hnis]
  by_cases hcase : 2 * (N / 2 ^ (n - i) % b) + N / 2 ^ (n - i - 1) % 2 < 2 ^ n
  · rw [Nat.mod_eq_of_lt hcase]
    have hrlow : N / 2 ^ (n - i) % b < 2 ^ (n - 1) := by omega
    rw [divT_low n _ hrlow, Nat.or_zero]
    by_cases hsub : b ≤ 2 * (N / 2 ^ (n - i) % b) + N / 2 ^ (n - i - 1) % 2
    · rw [if_pos hsub]
      have e2 : b * (2 * (N / 2 ^ (n - i) / b) + 1) = 2 * (b * (N / 2 ^ (n - i) / b)) + b := by
        ring
      have hsplitM : N / 2 ^ (n - i - 1) =
          (2 * (N / 2 ^ (n - i) % b) + N / 2 ^ (n - i - 1) % 2 - b) +
            b * (2 * (N / 2 ^ (n - i) / b) + 1) := by omega
      have hmodq : N / 2 ^ (n - i - 1) % b =
          2 * (N / 2 ^ (n - i) % b) + N / 2 ^ (n - i - 1) % 2 - b := by
        conv_lhs => rw [hsplitM]
        rw [Nat.add_mul_mod_self_left]
        exact Nat.mod_eq_of_lt hsm_lt
      have hdivq : N / 2 ^ (n - i - 1) / b = 2 * (N / 2 ^ (n - i) / b) + 1 := by
        conv_lhs => rw [hsplitM]
        rw [Nat.add_mul_div_left _ _ hb, Nat.div_eq_of_lt hsm_lt, Nat.zero_add]
      have hsum : 2 * (N / 2 ^ (n - i) % b) + N / 2 ^ (n - i - 1) % 2 + (2 ^ n - b) =
          2 ^ n + (2 * (N / 2 ^ (n - i) % b) + N / 2 ^ (n - i - 1) % 2 - b) := by
        omega
      have hhv : (2 * (N / 2 ^ (n - i) % b) + N / 2 ^ (n - i - 1) % 2 + (2 ^ n - b)) %
          2 ^ n = 2 * (N / 2 ^ (n - i) % b) + N / 2 ^ (n - i - 1) % 2 - b := by
        rw [hsum, Nat.add_mod_left]
        exact Nat.mod_eq_of_lt hsm_ltn
      rw [hhv, hlv, hmodq, hdivq, Nat.add_assoc]
    · rw [if_neg hsub]
      have e2 : b * (2 * (N / 2 ^ (n - i) / b)) = 2 * (b * (N / 2 ^ (n - i) / b)) := by
        ring
      have hsplitM : N / 2 ^ (n - i - 1) =
          (2 * (N / 2 ^ (n - i) % b) + N / 2 ^ (n - i - 1) % 2) +
            b * (2 * (N / 2 ^ (n - i) / b)) := by omega
      have hnosub_lt : 2 * (N / 2 ^ (n - i) % b) + N / 2 ^ (n - i - 1) % 2 < b := by
        omega
      have hmodq : N / 2 ^ (n - i - 1) % b =
          2 * (N / 2 ^ (n - i) % b) + N / 2 ^ (n - i - 1) % 2 := by
        conv_lhs => rw [hsplitM]
        rw [Nat.add_mul_mod_self_left]
        exact Nat.mod_eq_of_lt hnosub_lt
      have hdivq : N / 2 ^ (n - i - 1) / b = 2 * (N / 2 ^ (n - i) / b) := by
        conv_lhs => rw [hsplitM]
        rw [Nat.add_mul_div_left _ _ hb, Nat.div_eq_of_lt hnosub_lt, Nat.zero_add]
      rw [hmodq, hdivq]
  · push_neg at hcase
    have hrhigh : 2 ^ (n - 1) ≤ N / 2 ^ (n - i) % b := by omega
    rw [divT_high n _ hn hrhigh (by omega)]
    have hs_lt2n : 2 * (N / 2 ^ (n - i) % b) + N / 2 ^ (n - i - 1) % 2 - 2 ^ n < 2 ^ n := by
      omega
    have hdh : (2 * (N / 2 ^ (n - i) % b) + N / 2 ^ (n - i - 1) % 2) % 2 ^ n =
        2 * (N / 2 ^ (n - i) % b) + N / 2 ^ (n - i - 1) % 2 - 2 ^ n := by
      rw [Nat.mod_eq_sub_mod (by omega)]
      exact Nat.mod_eq_of_lt hs_lt2n
    rw [hdh, lor_all_ones n _ hs_lt2n, if_pos (by omega)]
    have e2 : b * (2 * (N / 2 ^ (n - i) / b) + 1) = 2 * (b * (N / 2 ^ (n - i) / b)) + b := by
      ring
    have hsplitM : N / 2 ^ (n - i - 1) =
        (2 * (N / 2 ^ (n - i) % b) + N / 2 ^ (n - i - 1) % 2 - b) +
          b * (2 * (N / 2 ^ (n - i) / b) + 1) := by omega
    have hmodq : N / 2 ^ (n - i - 1) % b =
        2 * (N / 2 ^ (n - i) % b) + N / 2 ^ (n - i - 1) % 2 - b := by
      conv_lhs => rw [hsplitM]
      rw [Nat.add_mul_mod_self_left]
      exact Nat.mod_eq_of_lt hsm_lt
    have hdivq : N / 2 ^ (n - i - 1) / b = 2 * (N / 2 ^ (n - i) / b) + 1 := by
      conv_lhs => rw [hsplitM]
      rw [Nat.add_mul_div_left _ _ hb, Nat.div_eq_of_lt hsm_lt, Nat.zero_add]
    have hsum : 2 * (N / 2 ^ (n - i) % b) + N / 2 ^ (n - i - 1) % 2 - 2 ^ n +
        (2 ^ n - b) = 2 * (N / 2 ^ (n - i) % b) + N / 2 ^ (n - i - 1) % 2 - b := by
      omega
    have hhv : (2 * (N / 2 ^ (n - i) % b) + N / 2 ^ (n - i - 1) % 2 - 2 ^ n +
        (2 ^ n - b)) % 2 ^ n =
        2 * (N / 2 ^ (n - i) % b) + N / 2 ^ (n - i - 1) % 2 - b := by
      rw [hsum]
      exact Nat.mod_eq_of_lt hsm_ltn
    rw [hhv, hlv, hmodq, hdivq, Nat.add_assoc]

theorem divIterate_eq (n b N : Nat) (hn : 0 < n) (hb : 0 < b) (hblt : b < 2 ^ n)
    (hNfit : N < b * 2 ^ n) :
    ∀ i, i ≤ n → (divStep n b)^[i] (N / 2 ^ n, N % 2 ^ n) =
      (N / 2 ^ (n - i) % b, N % 2 ^ (n - i) * 2 ^ i + N / 2 ^ (n - i) / b) := by
  intro i
  induction i with
  | zero =>
    intro _
    have h1 : N / 2 ^ n < b := by
      apply Nat.div_lt_of_lt_mul
      rw [mul_comm]
      exact hNfit
    simp only [Function.iterate_zero, id_eq, Nat.sub_zero, pow_zero, Nat.mul_one]
    rw [Nat.mod_eq_of_lt h1, Nat.div_eq_of_lt h1, Nat.add_zero]
  | succ k ih =>
    intro hik
    rw [Function.iterate_succ_apply', ih (by omega),
      divStep_eq n b N k hn hb hblt hNfit (by omega)]

theorem safeDivMagRaw_eq (n S a b : Nat) (hn : 0 < n) (hS : S ≤ n) (ha : a < 2 ^ n)
    (hb : 0 < b) (hblt : b < 2 ^ n) (hfit : a * 2 ^ S / b < 2 ^ n) :
    safeDivMagRaw n S a b = a * 2 ^ S / b := by
  have hNfit : a * 2 ^ S < b * 2 ^ n := by
    have h1 := (Nat.div_lt_iff_lt_mul hb).mp hfit
    rw [mul_comm (2 ^ n) b] at h1
    exact h1
  have hseed_h : (if S = 0 then 0 else a >>> (n - S)) = a * 2 ^ S / 2 ^ n := by
    by_cases hS0 : S = 0
    · rw [if_pos hS0, hS0, pow_zero, Nat.mul_one, Nat.div_eq_of_lt ha]
    · rw [if_neg hS0, Nat.shiftRight_eq_div_pow,
        show (2 : Nat) ^ n = 2 ^ (n - S) * 2 ^ S from by rw [← pow_add]; congr 1; omega,
        Nat.mul_div_mul_right _ _ (by positivity : (0 : Nat) < 2 ^ S)]
  have hseed_l : (a <<< S) % 2 ^ n = a * 2 ^ S % 2 ^ n := by
    rw [Nat.shiftLeft_eq]
  unfold safeDivMagRaw
  rw [hseed_h, hseed_l, divIterate_eq n b (a * 2 ^ S) hn hb hblt hNfit n le_rfl]
  simp only [Nat.sub_self, pow_zero, Nat.div_one, Nat.mod_one, Nat.zero_mul, Nat.zero_add]

theorem tdivRef_natAbs (a b : Int) : (tdivRef a b).natAbs = a.natAbs / b.natAbs := by
  unfold tdivRef
  rw [Int.natAbs_mul, Int.natAbs_mul, Int.natAbs_sign, Int.natAbs_sign]
  by_cases ha : a = 0
  · subst ha
    simp
  · by_cases hb : b = 0
    · subst hb
      simp
    · rw [if_neg ha, if_neg hb, one_mul, one_mul, Int.natAbs_ofNat]

theorem tdivRef_same_sign (a b : Int) (h : (0 ≤ a ∧ 0 ≤ b) ∨ (a ≤ 0 ∧ b ≤ 0)) :
    tdivRef a b = ((a.natAbs / b.natAbs : Nat) : Int) := by
  unfold tdivRef
  rcases h with ⟨ha, hb⟩ | ⟨ha, hb⟩
  · rcases lt_or_eq_of_le ha with ha1 | ha1
    · rcases lt_or_eq_of_le hb with hb1 | hb1
      · rw [Int.sign_eq_one_of_pos ha1, Int.sign_eq_one_of_pos hb1]
        ring
      · rw [← hb1]
        simp
    · rw [← ha1]
      simp
  · rcases lt_or_eq_of_le ha with ha1 | ha1
    · rcases lt_or_eq_of_le hb with hb1 | hb1
      · rw [Int.sign_eq_neg_one_of_neg ha1, Int.sign_eq_neg_one_of_neg hb1]
        ring
      · rw [hb1]
        simp
    · rw [ha1]
      simp

theorem tdivRef_diff_sign (a b : Int) (h : (a ≤ 0 ∧ 0 ≤ b) ∨ (0 ≤ a ∧ b ≤ 0)) :
    tdivRef a b = -((a.natAbs / b.natAbs : Nat) : Int) := by
  unfold tdivRef
  rcases h with ⟨ha, hb⟩ | ⟨ha, hb⟩
  · rcases lt_or_eq_of_le ha with ha1 | ha1
    · rcases lt_or_eq_of_le hb with hb1 | hb1
      · rw [Int.sign_eq_neg_one_of_neg ha1, Int.sign_eq_one_of_pos hb1]
        ring
      · rw [← hb1]
        simp
    · rw [ha1]
      simp
  · rcases lt_or_eq_of_le ha with ha1 | ha1
    · rcases lt_or_eq_of_le hb with hb1 | hb1
      · rw [Int.sign_eq_one_of_pos ha1, Int.sign_eq_neg_one_of_neg hb1]
        ring
      · rw [hb1]
        simp
    · rw [← ha1]
      simp

theorem safeDivRaw_toInt (n S : Nat) (signed : Bool) (x y : Nat) (hn : 0 < n)
    (hS : S ≤ n) (hx : x < 2 ^ n) (hy : y < 2 ^ n) (hy0 : toInt n signed y ≠ 0)
    (hfit : inRange n signed (tdivRef (toInt n signed x * 2 ^ S) (toInt n signed y))) :
    toInt n signed (safeDivRaw n S signed x y) =
      tdivRef (toInt n signed x * 2 ^ S) (toInt n signed y) := by
  have hvx := negAbs_eq n signed x hn hx
  have hvy := negAbs_eq n signed y hn hy
  have habs2 : ((2 : Int) ^ S).natAbs = 2 ^ S := by
    rw [Int.natAbs_pow]
    rfl
  have hDabs : (toInt n signed x * 2 ^ S).natAbs = (toInt n signed x).natAbs * 2 ^ S := by
    rw [Int.natAbs_mul, habs2]
  have habs : (tdivRef (toInt n signed x * 2 ^ S) (toInt n signed y)).natAbs =
      (toInt n signed x).natAbs * 2 ^ S / (toInt n signed y).natAbs := by
    rw [tdivRef_natAbs, hDabs]
  have hq_lt : (toInt n signed x).natAbs * 2 ^ S / (toInt n signed y).natAbs < 2 ^ n := by
    rw [← habs]
    exact inRange_natAbs_lt n signed _ hn hfit
  have hb0 : 0 < (toInt n signed y).natAbs := Int.natAbs_pos.mpr hy0
  have hax : (toInt n signed x).natAbs < 2 ^ n := by
    rw [← hvx]
    exact negAbs_lt n signed x hx
  have hblt : (toInt n signed y).natAbs < 2 ^ n := by
    rw [← hvy]
    exact negAbs_lt n signed y hy
  have hmag := safeDivMagRaw_eq n S (toInt n signed x).natAbs (toInt n signed y).natAbs
    hn hS hax hb0 hblt hq_lt
  have hfx := negFlag_true_iff n signed x hn hx
  have hfy := negFlag_true_iff n signed y hn hy
  unfold safeDivRaw
  by_cases hneg : (signed && (negFlag n signed x != negFlag n signed y)) = true
  · rw [if_pos hneg, hvx, hvy, hmag, neg_pattern n _ hq_lt]
    obtain ⟨hsg, hfl⟩ := (Bool.and_eq_true _ _).mp hneg
    have hdiff : negFlag n signed x ≠ negFlag n signed y := bne_iff_ne.mp hfl
    have hsigns : (toInt n signed x * 2 ^ S ≤ 0 ∧ 0 ≤ toInt n signed y) ∨
        (0 ≤ toInt n signed x * 2 ^ S ∧ toInt n signed y ≤ 0) := by
      cases hpx : negFlag n signed x with
      | false =>
        have hpy : negFlag n signed y = true := by
          cases hpy : negFlag n signed y
          · exact absurd (hpx.trans hpy.symm) hdiff
          · rfl
        have h1 : 0 ≤ toInt n signed x := by
          refine le_of_not_lt fun hc => ?_
          have h3 := hfx.mpr hc
          rw [hpx] at h3
          exact Bool.noConfusion h3
        exact Or.inr ⟨mul_nonneg h1 (by positivity), le_of_lt (hfy.mp hpy)⟩
      | true =>
        have hpy : negFlag n signed y = false := by
          cases hpy : negFlag n signed y
          · rfl
          · exact absurd (hpx.trans hpy.symm) hdiff
        have h2 : 0 ≤ toInt n signed y := by
          refine le_of_not_lt fun hc => ?_
          have h3 := hfy.mpr hc
          rw [hpy] at h3
          exact Bool.noConfusion h3
        refine Or.inl ⟨?_, h2⟩
        exact mul_nonpos_iff.mpr (Or.inr ⟨le_of_lt (hfx.mp hpx), by positivity⟩)
    have href : tdivRef (toInt n signed x * 2 ^ S) (toInt n signed y) =
        -((((toInt n signed x).natAbs * 2 ^ S / (toInt n signed y).natAbs : Nat)) : Int) := by
      rw [tdivRef_diff_sign _ _ hsigns, hDabs]
    rw [href]
    exact toInt_encode n signed _ hn (by rwa [href] at hfit)
  · rw [if_neg hneg, hvx, hvy, hmag]
    have hsigns : (0 ≤ toInt n signed x * 2 ^ S ∧ 0 ≤ toInt n signed y) ∨
        (toInt n signed x * 2 ^ S ≤ 0 ∧ toInt n signed y ≤ 0) := by
      cases hsg : signed with
      | false =>
        refine Or.inl ⟨?_, ?_⟩
        · rw [toInt_nonneg_eq]
          exact mul_nonneg (Int.natCast_nonneg x) (by positivity)
        · rw [toInt_nonneg_eq]
          exact Int.natCast_nonneg y
      | true =>
        rw [hsg] at hneg hfx hfy
        have heq : negFlag n true x = negFlag n true y := by
          by_contra hne
          exact hneg (by
            rw [Bool.true_and]
            exact bne_iff_ne.mpr hne)
        cases hpx : negFlag n true x with
        | false =>
          have hpy : negFlag n true y = false := by rw [← heq, hpx]
          have h1 : 0 ≤ toInt n true x := by
            refine le_of_not_lt fun hc => ?_
            have h3 := hfx.mpr hc
            rw [hpx] at h3
            exact Bool.noConfusion h3
          have h2 : 0 ≤ toInt n true y := by
            refine le_of_not_lt fun hc => ?_
            have h3 := hfy.mpr hc
            rw [hpy] at h3
            exact Bool.noConfusion h3
          exact Or.inl ⟨mul_nonneg h1 (by positivity), h2⟩
        | true =>
          have hpy : negFlag n true y = true := by rw [← heq, hpx]
          refine Or.inr ⟨?_, le_of_lt (hfy.mp hpy)⟩
          exact mul_nonpos_iff.mpr (Or.inr ⟨le_of_lt (hfx.mp hpx), by positivity⟩)
    have href : tdivRef (toInt n signed x * 2 ^ S) (toInt n signed y) =
        (((toInt n signed x).natAbs * 2 ^ S / (toInt n signed y).natAbs : Nat) : Int) := by
      rw [tdivRef_same_sign _ _ hsigns, hDabs]
    have henc : encode n (((toInt n signed x).natAbs * 2 ^ S /
        (toInt n signed y).natAbs : Nat) : Int) =
        (toInt n signed x).natAbs * 2 ^ S / (toInt n signed y).natAbs := by
      have hcast : ((2 ^ n : Nat) : Int) = (2 : Int) ^ n := castPow n
      have h2 := encode_of_nonneg n
        (((toInt n signed x).natAbs * 2 ^ S / (toInt n signed y).natAbs : Nat) : Int)
        (Int.natCast_nonneg _) (by omega)
      exact_mod_cast h2
    calc toInt n signed ((toInt n signed x).natAbs * 2 ^ S / (toInt n signed y).natAbs)
        = toInt n signed (encode n (((toInt n signed x).natAbs * 2 ^ S /
            (toInt n signed y).natAbs : Nat) : Int)) := by rw [henc]
      _ = (((toInt n signed x).natAbs * 2 ^ S / (toInt n signed y).natAbs : Nat) : Int) :=
          toInt_encode n signed _ hn (by rwa [href] at hfit)
      _ = tdivRef (toInt n signed x * 2 ^ S) (toInt n signed y) := href.symm

end SafeDivMain

/-- `operator<<=` (src/fixed.h line 244): `raw_data <<= amt`, wrapping at the
width of `T`; `operator<<` (line 97) copies and delegates. -/
def shlRaw (n x k : Nat) : Nat := (x <<< k) % 2 ^ n

/-- `operator>>=` (src/fixed.h line 245): `raw_data >>= amt` — a logical shift
for unsigned `T` and an arithmetic shift (floor division) for signed `T`;
`operator>>` (line 98) copies and delegates. -/
def shrRaw (n : Nat) (signed : Bool) (x k : Nat) : Nat :=
  if signed then encode n (Int.fdiv (toInt n true x) (2 ^ k)) else x >>> k

/-- Compile-time description of a candidate argument type for the
`detail::integer_or_T<T>` concept (src/fixed.h line 36). -/
structure CppTypeDesc where
  isBuiltinIntegral : Bool
  isSameAsT : Bool

/-- The concept `integer_or_T<T> = std::integral<A> || std::same_as<A, T>`
(src/fixed.h line 36) that constrains the shift-amount parameter of
`operator<<`, `operator>>`, `operator<<=`, `operator>>=`
(src/fixed.h lines 97-98 and 244-245). -/
def integer_or_T (d : CppTypeDesc) : Bool := d.isBuiltinIntegral || d.isSameAsT

/-- Descriptor of a built-in integer type used as a shift amount. -/
def builtinIntDesc : CppTypeDesc := ⟨true, false⟩

/-- Descriptor of the same-configuration `fixed` type as a candidate shift
amount: a class type is never `std::integral`, and it cannot equal `T`
because the static_assert at src/fixed.h line 50 requires
`numeric_limits<T>::is_integer` while `numeric_limits<fixed>::is_integer` is
false (line 274). -/
def sameFixedDesc : CppTypeDesc := ⟨false, false⟩

/-- `operator%=(const fixed&)` (src/fixed.h lines 235-239):
`raw_data %= other.raw_data`; C++ `%` on signed operands truncates toward
zero, following the dividend's sign. -/
def opModFixed (n : Nat) (signed : Bool) (x y : Nat) : Nat :=
  if signed then encode n (Int.tmod (toInt n true x) (toInt n true y)) else x % y

/-- `fixed % integer` (src/fixed.h line 91): there is no integer overload of
`operator%=`, so the integer argument is converted through the implicit
constructor `fixed(int_val)` (line 61) and `operator%=(const fixed&)` runs. -/
def opModInt (n S : Nat) (signed : Bool) (x : Nat) (k : Int) : Nat :=
  opModFixed n signed x (fromInteger n S k)

/-- `operator/=(integer_or_T auto)` (src/fixed.h lines 228-232):
`raw_data /= other` directly, with the divisor (already converted to a value
of `T`, pattern `ky`) applied to the raw field without scaling. -/
def opDivInt (n : Nat) (signed : Bool) (x ky : Nat) : Nat :=
  if signed then encode n (Int.tdiv (toInt n true x) (toInt n true ky)) else x / ky

section MiscHelpers

theorem encode_natCast (n m : Nat) : encode n ((m : Nat) : Int) = m % 2 ^ n := by
  unfold encode
  have h1 : ((m : Nat) : Int) % ((2 : Int) ^ n) = ((m % 2 ^ n : Nat) : Int) := by
    push_cast
    ring
  rw [h1]
  exact Int.toNat_natCast _

theorem fdiv_pow_inRange (n k : Nat) (signed : Bool) (v : Int) (hn : 0 < n)
    (h : inRange n signed v) : inRange n signed (Int.fdiv v (2 ^ k)) := by
  have hp : (0 : Int) < 2 ^ k := by positivity
  have hfe : Int.fdiv v (2 ^ k) = v / 2 ^ k := Int.fdiv_eq_ediv _ (le_of_lt hp)
  have hdm := Int.ediv_add_emod v (2 ^ k)
  have hr0 : 0 ≤ v % 2 ^ k := Int.emod_nonneg v (ne_of_gt hp)
  have hrlt : v % 2 ^ k < 2 ^ k := Int.emod_lt_of_pos v hp
  have hup : v / 2 ^ k ≤ 0 ∨ v / 2 ^ k ≤ v := by
    by_cases hd : v / 2 ^ k ≤ 0
    · exact Or.inl hd
    · push_neg at hd
      refine Or.inr ?_
      have h1 : 1 * (v / 2 ^ k) ≤ 2 ^ k * (v / 2 ^ k) :=
        mul_le_mul_of_nonneg_right (by omega) (by omega)
      omega
  have hdown : 0 ≤ v / 2 ^ k ∨ v ≤ v / 2 ^ k := by
    by_cases hd : 0 ≤ v / 2 ^ k
    · exact Or.inl hd
    · push_neg at hd
      refine Or.inr ?_
      have h1 : (2 ^ k - 1) * 1 ≤ (2 ^ k - 1) * -(v / 2 ^ k) :=
        mul_le_mul_of_nonneg_left (by omega) (by omega)
      have h2 : (2 ^ k - 1) * -(v / 2 ^ k) = -(2 ^ k * (v / 2 ^ k)) + v / 2 ^ k := by
        ring
      omega
  unfold inRange at h ⊢
  have hApos := two_pow_pos (n - 1)
  have hNpos := two_pow_pos n
  cases signed with
  | false =>
    rw [if_neg Bool.false_ne_true] at h ⊢
    rw [hfe]
    constructor
    · exact Int.ediv_nonneg h.1 (le_of_lt hp)
    · rcases hup with h2 | h2 <;> omega
  | true =>
    rw [if_pos rfl] at h ⊢
    rw [hfe]
    constructor
    · rcases hdown with h2 | h2 <;> omega
    · rcases hup with h2 | h2 <;> omega

theorem shrRaw_toInt (n k : Nat) (signed : Bool) (x : Nat) (hn : 0 < n) (hx : x < 2 ^ n) :
    toInt n signed (shrRaw n signed x k) = Int.fdiv (toInt n signed x) (2 ^ k) := by
  unfold shrRaw
  cases signed with
  | false =>
    rw [if_neg Bool.false_ne_true, toInt_nonneg_eq, toInt_nonneg_eq,
      Nat.shiftRight_eq_div_pow]
    have hp : (0 : Int) < 2 ^ k := by positivity
    rw [Int.fdiv_eq_ediv _ (le_of_lt hp), ← castPow]
    exact_mod_cast (Int.ofNat_ediv x (2 ^ k)).symm
  | true =>
    rw [if_pos rfl]
    exact toInt_encode n true _ hn
      (fdiv_pow_inRange n k true _ hn (toInt_inRange n true x hn hx))

end MiscHelpers

section Claims

/-- Claim C1: with the safe strategy (`fast_multdiv = false`), for every pair
of same-configuration raw patterns `x, y` such that the true mathematical
product of the raw values divided by `2 ^ S`, truncated toward zero, is
representable in `T`, `operator*` and `operator*=` produce the value whose
raw field equals that reference product, for signed and unsigned `T` and at
boundary values. -/
theorem claim_C1_safe_mul_correct (n l S : Nat) (signed : Bool) (x y : Nat)
    (hn : n = 2 * l) (hl : 0 < l) (hS : S ≤ n) (hx : x < 2 ^ n) (hy : y < 2 ^ n)
    (hfit : inRange n signed (truncDiv (toInt n signed x * toInt n signed y) (2 ^ S))) :
    toInt n signed (safeMulRaw n S signed x y) =
      truncDiv (toInt n signed x * toInt n signed y) (2 ^ S) :=
  safeMulRaw_toInt n l S signed x y hn hl hS hx hy hfit

/-- Witness for C1 on a signed 8-bit configuration at scale 4 with the left
operand at the minimum (boundary) pattern. -/
theorem claim_C1_witness :
    ((8 : Nat) = 2 * 4 ∧ (0 : Nat) < 4 ∧ (4 : Nat) ≤ 8 ∧ (128 : Nat) < 2 ^ 8 ∧
      (16 : Nat) < 2 ^ 8 ∧
      inRange 8 true (truncDiv (toInt 8 true 128 * toInt 8 true 16) (2 ^ 4))) ∧
    toInt 8 true (safeMulRaw 8 4 true 128 16) =
      truncDiv (toInt 8 true 128 * toInt 8 true 16) (2 ^ 4) :=
  ⟨⟨rfl, by decide, by decide, by decide, by decide, by decide⟩,
    claim_C1_safe_mul_correct 8 4 4 true 128 16 rfl (by decide) (by decide) (by decide)
      (by decide) (by decide)⟩

/-- Claim C2: with the safe strategy, for every pair of same-configuration raw
patterns with a nonzero divisor such that the true quotient
`(raw_x * 2 ^ S) / raw_y`, truncated toward zero, is representable in `T`,
`operator/` and `operator/=` produce the value whose raw field equals that
reference quotient, for signed and unsigned `T` (sign handled through
absolute values, negating when operand signs differ). -/
theorem claim_C2_safe_div_correct (n S : Nat) (signed : Bool) (x y : Nat) (hn : 0 < n)
    (hS : S ≤ n) (hx : x < 2 ^ n) (hy : y < 2 ^ n) (hy0 : toInt n signed y ≠ 0)
    (hfit : inRange n signed (tdivRef (toInt n signed x * 2 ^ S) (toInt n signed y))) :
    toInt n signed (safeDivRaw n S signed x y) =
      tdivRef (toInt n signed x * 2 ^ S) (toInt n signed y) :=
  safeDivRaw_toInt n S signed x y hn hS hx hy hy0 hfit

/-- Witness for C2 on a signed 8-bit configuration at scale 4:
(-1.5) / 2 = -0.75, raw pattern of -12. -/
theorem claim_C2_witness :
    ((0 : Nat) < 8 ∧ (4 : Nat) ≤ 8 ∧ (232 : Nat) < 2 ^ 8 ∧ (32 : Nat) < 2 ^ 8 ∧
      toInt 8 true 32 ≠ 0 ∧
      inRange 8 true (tdivRef (toInt 8 true 232 * 2 ^ 4) (toInt 8 true 32))) ∧
    toInt 8 true (safeDivRaw 8 4 true 232 32) =
      tdivRef (toInt 8 true 232 * 2 ^ 4) (toInt 8 true 32) :=
  ⟨⟨by decide, by decide, by decide, by decide, by decide, by decide⟩,
    claim_C2_safe_div_correct 8 4 true 232 32 (by decide) (by decide) (by decide)
      (by decide) (by decide) (by decide)⟩

/-- Claim C3 (code bug): the round trip `to_integer(from_integer(v)) == v`
fails for a narrower target type. With `R` 32-bit unsigned, `S = 16`,
`v = 2` and `T2` 8-bit unsigned (which can represent 2), the implemented
conversion `T2(raw_data) >> scale_bits` yields 0; the documented
cast-after-shift contract yields 2. -/
theorem claim_C3_roundtrip_fails :
    toIntegerVal 8 false 16 (fromInteger 32 16 2) = 0 ∧
    toIntegerContractVal 32 false 8 false 16 (fromInteger 32 16 2) = 2 := by
  constructor
  · decide
  · decide

/-- Claim C4 (code bug): the conversion narrows before shifting. With `R`
32-bit unsigned, `S = 4`, value 33 (raw 528) and `T2` 8-bit unsigned, the
implemented `T2(raw) >> S` yields 1 while the contract `T2(raw >> S)`
(shift at the width of `R`, then narrow) yields 33. -/
theorem claim_C4_cast_order_bug :
    toIntegerVal 8 false 4 (fromInteger 32 4 33) = 1 ∧
    toIntegerContractVal 32 false 8 false 4 (fromInteger 32 4 33) = 33 := by
  constructor
  · decide
  · decide

/-- Claim C5 counterexample: `from_scaled(v, S)` does not equal
`from_integer(v)`: at `R` 8-bit unsigned, `S = 4`, `v = 1`, `from_scaled`
stores raw 1 while `from_integer` stores raw 16. -/
theorem claim_C5_counterexample : fromScaled 8 4 1 4 ≠ fromInteger 8 4 1 := by
  decide

/-- Claim C5 (amended): constructing with explicit scale 0 — not scale `S` —
coincides with the plain integer constructor: `from_scaled(v, 0)` equals
`from_integer(v)` for every `v` and configuration. -/
theorem claim_C5_scale_zero (n S : Nat) (v : Int) :
    fromScaled n S v 0 = fromInteger n S v := rfl

/-- Claim C6: multiplication is commutative: `a * b = b * a` for
same-configuration operands under the safe and the fast strategy, and
`k * a = a * k` for a plain integer `k` (the friend integer-left operator
agrees with `operator*=(integer)`). -/
theorem claim_C6_mul_comm (n l S w : Nat) (wSigned signed : Bool) (x y : Nat) (k : Int)
    (hn : n = 2 * l) (hS : S ≤ n) (hx : x < 2 ^ n) (hy : y < 2 ^ n) :
    safeMulRaw n S signed x y = safeMulRaw n S signed y x ∧
    fastMulRaw n S w wSigned signed x y = fastMulRaw n S w wSigned signed y x ∧
    intMulFixed n signed k x = mulAssignInt n signed x k := by
  refine ⟨?_, ?_, rfl⟩
  · unfold safeMulRaw
    have hbne : ∀ p q : Bool, (p != q) = (q != p) := by decide
    rw [hbne,
      safeMulMagRaw_eq n l S (negAbs n signed x) (negAbs n signed y) hn hS
        (negAbs_lt n signed x hx) (negAbs_lt n signed y hy),
      safeMulMagRaw_eq n l S (negAbs n signed y) (negAbs n signed x) hn hS
        (negAbs_lt n signed y hy) (negAbs_lt n signed x hx),
      Nat.mul_comm]
  · unfold fastMulRaw
    rw [Nat.mul_comm]

/-- Witness for C6 on a signed 8-bit configuration at scale 4 with a 16-bit
widening type. -/
theorem claim_C6_witness :
    ((8 : Nat) = 2 * 4 ∧ (4 : Nat) ≤ 8 ∧ (200 : Nat) < 2 ^ 8 ∧ (3 : Nat) < 2 ^ 8) ∧
    (safeMulRaw 8 4 true 200 3 = safeMulRaw 8 4 true 3 200 ∧
      fastMulRaw 8 4 16 true true 200 3 = fastMulRaw 8 4 16 true true 3 200 ∧
      intMulFixed 8 true 5 200 = mulAssignInt 8 true 200 5) :=
  ⟨⟨rfl, by decide, by decide, by decide⟩,
    claim_C6_mul_comm 8 4 4 16 true true 200 3 5 rfl (by decide) (by decide) (by decide)⟩

/-- Claim C7: in the safe long multiplication no intermediate accumulation
wraps at the native width `n`: each of the three carry accumulations
`H1_L2_C`, `L1_H2_C` and `H1_H2_C` is at most `2 ^ n - 1` before reduction,
and the assembled double-width result equals the exact product `a * b`. -/
theorem claim_C7_no_intermediate_overflow (n l a b : Nat) (hn : n = 2 * l)
    (ha : a < 2 ^ n) (hb : b < 2 ^ n) :
    highBits n a * lowBits n b + highBits n (mulL1L2 n a b) ≤ 2 ^ n - 1 ∧
    lowBits n a * highBits n b + lowBits n (mulH1L2C n a b) ≤ 2 ^ n - 1 ∧
    highBits n a * highBits n b + highBits n (mulH1L2C n a b) +
      highBits n (mulL1H2C n a b) ≤ 2 ^ n - 1 ∧
    mulResultHigh n a b * 2 ^ n + mulResultLow n a b = a * b :=
  ⟨mulH1L2C_inner_le n l a b hn ha, mulL1H2C_inner_le n l a b hn hb,
    mulH1H2C_inner_le n l a b hn ha hb, mulResult_exact n l a b hn ha hb⟩

/-- Witness for C7 at the extreme magnitudes of an 8-bit configuration. -/
theorem claim_C7_witness :
    ((8 : Nat) = 2 * 4 ∧ (255 : Nat) < 2 ^ 8 ∧ (255 : Nat) < 2 ^ 8) ∧
    (highBits 8 255 * lowBits 8 255 + highBits 8 (mulL1L2 8 255 255) ≤ 2 ^ 8 - 1 ∧
      lowBits 8 255 * highBits 8 255 + lowBits 8 (mulH1L2C 8 255 255) ≤ 2 ^ 8 - 1 ∧
      highBits 8 255 * highBits 8 255 + highBits 8 (mulH1L2C 8 255 255) +
        highBits 8 (mulL1H2C 8 255 255) ≤ 2 ^ 8 - 1 ∧
      mulResultHigh 8 255 255 * 2 ^ 8 + mulResultLow 8 255 255 = 255 * 255) :=
  ⟨⟨rfl, by decide, by decide⟩,
    claim_C7_no_intermediate_overflow 8 4 255 255 rfl (by decide) (by decide)⟩

/-- Claim C8 counterexample: a same-configuration fixed-point value is not an
accepted shift amount — the `integer_or_T<T>` constraint on the shift
operators rejects the fixed type itself (it is neither `std::integral` nor
`T`, whose `numeric_limits` must declare `is_integer`). -/
theorem claim_C8_counterexample : integer_or_T sameFixedDesc = false := rfl

/-- Claim C8 (amended): the shift operators accept a plain integer (or the
representation type `T`) as the shift amount, shifting the raw field by that
many bit positions — left shift multiplies raw by `2 ^ k` mod `2 ^ n`, right
shift arithmetic-shifts the raw value — while a same-configuration
fixed-point value is not an accepted shift amount. -/
theorem claim_C8_shift_behavior (n k : Nat) (signed : Bool) (x : Nat) (hn : 0 < n)
    (hx : x < 2 ^ n) :
    integer_or_T builtinIntDesc = true ∧ integer_or_T sameFixedDesc = false ∧
    shlRaw n x k = x * 2 ^ k % 2 ^ n ∧
    toInt n signed (shrRaw n signed x k) = Int.fdiv (toInt n signed x) (2 ^ k) := by
  refine ⟨rfl, rfl, ?_, shrRaw_toInt n k signed x hn hx⟩
  unfold shlRaw
  rw [Nat.shiftLeft_eq]

/-- Witness for C8 on a signed 8-bit configuration, shifting by 3. -/
theorem claim_C8_witness :
    ((0 : Nat) < 8 ∧ (200 : Nat) < 2 ^ 8) ∧
    (integer_or_T builtinIntDesc = true ∧ integer_or_T sameFixedDesc = false ∧
      shlRaw 8 200 3 = 200 * 2 ^ 3 % 2 ^ 8 ∧
      toInt 8 true (shrRaw 8 true 200 3) = Int.fdiv (toInt 8 true 200) (2 ^ 3)) :=
  ⟨⟨by decide, by decide⟩, claim_C8_shift_behavior 8 3 true 200 (by decide) (by decide)⟩

/-- Claim C9: the numeric-trait descriptor exposes `min()` and `max()` whose
raw fields equal `numeric_limits<T>::min()` and `numeric_limits<T>::max()`,
and `epsilon()` equal to `from_scaled(1, S)`, the value with raw field 1;
the min/max values read back as the extreme values of `T`. -/
theorem claim_C9_numeric_limits (n S : Nat) (signed : Bool) (hn : 0 < n) :
    nlMinPattern n signed = tMinPattern n signed ∧
    nlMaxPattern n signed = tMaxPattern n signed ∧
    nlEpsilonPattern n S = fromScaled n S 1 S ∧
    nlEpsilonPattern n S = 1 ∧
    toInt n signed (nlMinPattern n signed) =
      (if signed then -((2 : Int) ^ (n - 1)) else 0) ∧
    toInt n signed (nlMaxPattern n signed) =
      (if signed then (2 : Int) ^ (n - 1) - 1 else (2 : Int) ^ n - 1) := by
  have hApos := two_pow_pos (n - 1)
  have hcastn : ((2 ^ n : Nat) : Int) = (2 : Int) ^ n := castPow n
  have hcastn1 : ((2 ^ (n - 1) : Nat) : Int) = (2 : Int) ^ (n - 1) := castPow (n - 1)
  have hs := halfPow n hn
  refine ⟨rfl, rfl, rfl, ?_, ?_, ?_⟩
  · unfold nlEpsilonPattern fromScaled
    rw [Nat.sub_self, pow_zero, mul_one]
    unfold encode
    have h2 : (2 : Int) ^ 1 ≤ 2 ^ n := pow_le_pow_right (by norm_num) hn
    rw [Int.emod_eq_of_lt (by norm_num) (by norm_num at h2 ⊢; omega)]
    rfl
  · unfold nlMinPattern tMinPattern
    cases signed with
    | false =>
      rw [if_neg Bool.false_ne_true, if_neg Bool.false_ne_true, toInt_nonneg_eq]
      rfl
    | true =>
      rw [if_pos rfl, if_pos rfl, toInt_lt_cases]
      rw [if_pos le_rfl]
      omega
  · unfold nlMaxPattern tMaxPattern
    cases signed with
    | false =>
      rw [if_neg Bool.false_ne_true, if_neg Bool.false_ne_true, toInt_nonneg_eq]
      have hp : (0 : Nat) < 2 ^ n := by positivity
      omega
    | true =>
      rw [if_pos rfl, if_pos rfl, toInt_lt_cases]
      rw [if_neg (by omega)]
      have hp : (0 : Nat) < 2 ^ (n - 1) := by positivity
      omega

/-- Witness for C9 on a signed 8-bit configuration at scale 4. -/
theorem claim_C9_witness :
    (0 : Nat) < 8 ∧
    (nlMinPattern 8 true = tMinPattern 8 true ∧
      nlMaxPattern 8 true = tMaxPattern 8 true ∧
      nlEpsilonPattern 8 4 = fromScaled 8 4 1 4 ∧
      nlEpsilonPattern 8 4 = 1 ∧
      toInt 8 true (nlMinPattern 8 true) =
        (if true then -((2 : Int) ^ (8 - 1)) else 0) ∧
      toInt 8 true (nlMaxPattern 8 true) =
        (if true then (2 : Int) ^ (8 - 1) - 1 else (2 : Int) ^ 8 - 1)) :=
  ⟨by decide, claim_C9_numeric_limits 8 4 true (by decide)⟩

/-- Claim C10: `x % k` routes the integer through the implicit fixed
constructor, so for unsigned `T` the raw result is
`raw_x mod ((k << S) mod 2 ^ n)` — not `raw_x mod k` (the concrete instance
at `R` = uint32, `S` = 16, raw 65536, `k` = 3 yields 65536, whereas
`raw_x mod k` would be 1) — while `operator/=(integer)` divides the raw
field by the divisor directly without scaling. -/
theorem claim_C10_mod_scales_divisor (n S x k : Nat) :
    opModInt n S false x ((k : Nat) : Int) = x % (k * 2 ^ S % 2 ^ n) ∧
    opModInt n S true x ((k : Nat) : Int) =
      encode n (Int.tmod (toInt n true x) (toInt n true (k * 2 ^ S % 2 ^ n))) ∧
    opDivInt n false x k = x / k ∧
    opModInt 32 16 false 65536 ((3 : Nat) : Int) = 65536 ∧
    (65536 : Nat) % 3 = 1 := by
  have hfrom : fromInteger n S ((k : Nat) : Int) = k * 2 ^ S % 2 ^ n := by
    unfold fromInteger
    have h1 : ((k : Nat) : Int) * (2 : Int) ^ S = ((k * 2 ^ S : Nat) : Int) := by
      push_cast
      ring
    rw [h1, encode_natCast]
  refine ⟨?_, ?_, ?_, ?_, by norm_num⟩
  · unfold opModInt opModFixed
    rw [if_neg Bool.false_ne_true, hfrom]
  · unfold opModInt opModFixed
    rw [if_pos rfl, hfrom]
  · unfold opDivInt
    rw [if_neg Bool.false_ne_true]
  · decide

end Claims

end FixedPoint
